import Mathlib

/-!
A verification development for the tolerant CSV parser (`parseCSV` and
`splitCSVLines` from `src/tools/csv.js`).

The parser is embedded shallowly: strings become `List Char`, the character
level while-loop becomes a fuel-indexed step function (`step` / `loopF`) where
one unit of fuel corresponds to one iteration of the loop; since every
iteration advances the cursor by at least one character, fuel equal to the
input length always suffices (this fuel-sufficiency fact is proved below and
is the formal content of the linear-termination claim).
-/

namespace CSVSpec

/-- The whitespace characters recognized by the JavaScript `String.trim`
method: ECMAScript WhiteSpace and LineTerminator code points. -/
def isJSWS (c : Char) : Bool :=
  [9, 10, 11, 12, 13, 32, 160, 0x1680, 0x2000, 0x2001, 0x2002, 0x2003, 0x2004,
    0x2005, 0x2006, 0x2007, 0x2008, 0x2009, 0x200A, 0x2028, 0x2029, 0x202F,
    0x205F, 0x3000, 0xFEFF].contains c.toNat

/-- JavaScript `String.trim` on a list of characters: drop leading and
trailing whitespace. -/
def trimJS (l : List Char) : List Char :=
  ((l.dropWhile isJSWS).reverse.dropWhile isJSWS).reverse

/-- JavaScript `field.replace(/""/g, A)` where `A` is one double quote:
left-to-right, non-overlapping replacement of doubled quotes by single
quotes. -/
def replDQ : List Char → List Char
  | '"' :: '"' :: rest => '"' :: replDQ rest
  | c :: rest => c :: replDQ rest
  | [] => []

/-- Field finalization, the body of `pushField` in `csv.js` (lines 40-55):
trim unless the quote flag is set or trimming is disabled, then strip one
surrounding quote pair (when present, buffer length at least 2) and collapse
doubled quotes. -/
def finalizeField (inQuotes doTrim : Bool) (field : List Char) : List Char :=
  let f := if ¬ inQuotes ∧ doTrim then trimJS field else field
  if 2 ≤ f.length ∧ f.head? = some '"' ∧ f.getLast? = some '"' then
    replDQ ((f.drop 1).dropLast)
  else f

/-- The recognized options of `parseCSV` with their default values
(`csv.js` lines 17-20). -/
structure Config where
  delimiter : Char := ','
  commentChar : Char := '#'
  hasHeader : Bool := true
  trim : Bool := true
deriving DecidableEq, Repr

/-- The default configuration: `parseCSV(data)` with no options object. -/
def defaultCfg : Config := {}

/-- The mutable state of the `parseCSV` while-loop: finished rows, the row
under construction, the field buffer, the quote flag and the line-start
flag (`csv.js` lines 31-38; `prevChar` and `curLineNum` are never read and
are omitted). -/
structure TState where
  rows : List (List (List Char))
  row : List (List Char)
  field : List Char
  inQuotes : Bool
  lineStart : Bool
deriving DecidableEq, Repr

/-- `pushField` (`csv.js` lines 40-55): finalize the buffer, append it to
the current row, clear the buffer. -/
def pushField (cfg : Config) (s : TState) : TState :=
  { s with row := s.row ++ [finalizeField s.inQuotes cfg.trim s.field],
           field := [] }

/-- A row consisting of a single empty-or-all-whitespace field
(`csv.js` lines 59-65). -/
def isBlankRow : List (List Char) → Bool
  | [f] => f.isEmpty || (trimJS f).isEmpty
  | _ => false

/-- A nonempty row whose first field, trimmed, starts with the comment
character (`csv.js` lines 66-72). -/
def isCommentRow (cc : Char) : List (List Char) → Bool
  | f :: _ => (trimJS f).head? == some cc
  | [] => false

/-- `pushRow` (`csv.js` lines 57-75): discard blank rows and comment rows,
append every other row to the output. -/
def pushRow (cc : Char) (s : TState) : TState :=
  if isBlankRow s.row then { s with row := [] }
  else if isCommentRow cc s.row then { s with row := [] }
  else { s with rows := s.rows ++ [s.row], row := [] }

/-- One iteration of the `parseCSV` while-loop (`csv.js` lines 77-153):
given the current character, the remaining characters and the state, return
the remaining input after this iteration together with the new state. -/
def step (cfg : Config) (c : Char) (rest : List Char) (s : TState) :
    List Char × TState :=
  if s.lineStart ∧ c = cfg.commentChar then
    (((c :: rest).dropWhile (fun x => x != '\n')).drop 1, s)
  else if ¬ s.inQuotes ∧ c = cfg.delimiter then
    (rest, { pushField cfg s with lineStart := false })
  else if ¬ s.inQuotes ∧ c = '\n' then
    (rest, { pushRow cfg.commentChar (pushField cfg s) with lineStart := true })
  else if ¬ s.inQuotes ∧ c = '\x00' then
    (rest, { pushRow cfg.commentChar (pushField cfg s) with lineStart := true })
  else if c = '"' then
    if ¬ s.inQuotes then
      (rest, { s with inQuotes := s.field.isEmpty, field := s.field ++ ['"'],
                      lineStart := false })
    else
      match rest with
      | '"' :: rest2 =>
          (rest2, { s with field := s.field ++ ['"'], lineStart := false })
      | _ =>
          (rest, { s with inQuotes := false, field := s.field ++ ['"'],
                          lineStart := false })
  else if c = '\n' ∧ s.inQuotes then
    (rest, { s with field := s.field ++ ['\n'] })
  else
    (rest, { s with field := s.field ++ [c], lineStart := false })

/-- The `parseCSV` while-loop, indexed by fuel; one unit of fuel is one
iteration.  Fuel equal to the length of the remaining input always suffices
(proved below). -/
def loopF (cfg : Config) : Nat → List Char → TState → TState
  | 0, _, s => s
  | _ + 1, [], s => s
  | fuel + 1, c :: rest, s =>
      loopF cfg fuel (step cfg c rest s).1 (step cfg c rest s).2

/-- Running the loop to completion on an input list. -/
def run (cfg : Config) (l : List Char) (s : TState) : TState :=
  loopF cfg l.length l s

/-- BOM stripping (`csv.js` lines 23-25). -/
def stripBOM : List Char → List Char
  | [] => []
  | c :: rest => if c = '\uFEFF' then rest else c :: rest

/-- First normalization pass, `data.replace(/\r\n/g, "\n")`
(`csv.js` line 28). -/
def normCRLF : List Char → List Char
  | '\r' :: '\n' :: rest => '\n' :: normCRLF rest
  | c :: rest => c :: normCRLF rest
  | [] => []

/-- Second normalization pass, `.replace(/\r/g, "\n")` (`csv.js` line 28). -/
def normCR : List Char → List Char
  | '\r' :: rest => '\n' :: normCR rest
  | c :: rest => c :: normCR rest
  | [] => []

/-- The input actually fed to the state machine: BOM-stripped and
newline-normalized. -/
def normalizeInput (data : List Char) : List Char :=
  normCR (normCRLF (stripBOM data))

/-- Removal of trailing rows that consist of a single empty field
(`csv.js` lines 161-164). -/
def dropTrailingBlank (rows : List (List (List Char))) :
    List (List (List Char)) :=
  (rows.reverse.dropWhile (fun r => r == [([] : List Char)])).reverse

/-- The initial loop state (`csv.js` lines 31-38). -/
def initState : TState :=
  { rows := [], row := [], field := [], inQuotes := false, lineStart := true }

/-- End-of-input flush (`csv.js` lines 156-159). -/
def flush (cfg : Config) (s : TState) : TState :=
  if 0 < s.field.length ∨ 0 < s.row.length then
    pushRow cfg.commentChar (pushField cfg s)
  else s

/-- The tokenization part of `parseCSV` (`csv.js` lines 16-164): the row
sequence before header application. -/
def tokenize (cfg : Config) (data : List Char) : List (List (List Char)) :=
  let d := normalizeInput data
  dropTrailingBlank (flush cfg (run cfg d initState)).rows

/-- JavaScript property assignment `obj[k] = v` on an insertion-ordered
object: overwrite the value if the key is present, else append. -/
def objInsert (obj : List (List Char × List Char)) (k v : List Char) :
    List (List Char × List Char) :=
  if obj.any (fun p => p.1 == k) then
    obj.map (fun p => if p.1 == k then (p.1, v) else p)
  else obj ++ [(k, v)]

/-- Record building for one row (`csv.js` lines 186-189): each header name
in order is assigned the row value at its position, or the empty string when
the row is shorter; row positions beyond the header count are never read. -/
def buildObj (headers : List (List Char)) (r : List (List Char)) :
    List (List Char × List Char) :=
  headers.enum.foldl (fun obj hj => objInsert obj hj.2 (r.getD hj.1 [])) []

/-- Synthesized header names `field1 .. fieldN` (`csv.js` lines 176-178). -/
def genHeaders (n : Nat) : List (List Char) :=
  (List.range n).map (fun j => ("field" ++ toString (j + 1)).toList)

/-- Full `parseCSV` (`csv.js` lines 16-193): tokenize, then apply the
header row (or synthesized headers) to build one record per data row. -/
def parseCSV (cfg : Config) (data : List Char) :
    List (List (List Char × List Char)) :=
  match tokenize cfg data with
  | [] => []
  | r0 :: rest =>
      let headers :=
        if cfg.hasHeader then r0
        else genHeaders (((r0 :: rest).map List.length).foldl Nat.max 0)
      let dataRows := if cfg.hasHeader then rest else r0 :: rest
      dataRows.map (fun r => buildObj headers r)

/-- `splitCSVLines` (`csv.js` lines 196-223) as a recursion over the input,
carrying the quote flag and the accumulated current line. -/
def splitGo : List Char → Bool → List Char → List (List Char)
  | [], _, cur => if (trimJS cur).isEmpty then [] else [cur]
  | '"' :: '"' :: rest, true, cur => splitGo rest true (cur ++ ['"'])
  | '"' :: rest, q, cur => splitGo rest (!q) (cur ++ ['"'])
  | '\n' :: rest, q, cur =>
      if q then splitGo rest q (cur ++ ['\n'])
      else (if (trimJS cur).isEmpty then [] else [cur]) ++ splitGo rest q []
  | '\r' :: '\n' :: rest, false, cur =>
      (if (trimJS cur).isEmpty then [] else [cur]) ++ splitGo rest false []
  | '\r' :: rest, q, cur =>
      if q then splitGo rest q (cur ++ ['\r'])
      else (if (trimJS cur).isEmpty then [] else [cur]) ++ splitGo rest false []
  | c :: rest, q, cur => splitGo rest q (cur ++ [c])

/-- `splitCSVLines` entry point. -/
def splitCSVLines (data : List Char) : List (List Char) :=
  splitGo data false []

/-- The quote-aware segmentation underlying `splitCSVLines`, keeping every
segment (blank ones included) and always keeping the final segment; used to
express the specification of the line splitter. -/
def segs : List Char → Bool → List Char → List (List Char)
  | [], _, cur => [cur]
  | '"' :: '"' :: rest, true, cur => segs rest true (cur ++ ['"'])
  | '"' :: rest, q, cur => segs rest (!q) (cur ++ ['"'])
  | '\n' :: rest, q, cur =>
      if q then segs rest q (cur ++ ['\n'])
      else cur :: segs rest q []
  | '\r' :: '\n' :: rest, false, cur => cur :: segs rest false []
  | '\r' :: rest, q, cur =>
      if q then segs rest q (cur ++ ['\r'])
      else cur :: segs rest false []
  | c :: rest, q, cur => segs rest q (cur ++ [c])


/-! ### Basic facts about the loop: each iteration consumes input -/

theorem step_fst_length (cfg : Config) (c : Char) (rest : List Char)
    (s : TState) : (step cfg c rest s).1.length ≤ rest.length := by
  unfold step
  split
  · have h := (List.dropWhile_suffix (l := c :: rest) (fun x => x != '\n')).length_le
    simp only [List.length_cons] at h
    simp only [List.length_drop]
    omega
  · split
    · exact le_rfl
    · split
      · exact le_rfl
      · split
        · exact le_rfl
        · split
          · split
            · exact le_rfl
            · split
              · simp only [List.length_cons]
                omega
              · exact le_rfl
          · split
            · exact le_rfl
            · exact le_rfl

/-- Fuel sufficiency: any fuel at least the length of the remaining input
gives the same result as fuel exactly the length of the input.  Every
iteration of the `parseCSV` loop consumes at least one character, so the
loop terminates after at most `length` iterations. -/
theorem loopF_fuel (cfg : Config) :
    ∀ (fuel : Nat) (l : List Char) (s : TState), l.length ≤ fuel →
      loopF cfg fuel l s = loopF cfg l.length l s := by
  intro fuel
  induction fuel using Nat.strong_induction_on with
  | _ fuel ih =>
    intro l s hl
    cases fuel with
    | zero =>
      cases l with
      | nil => rfl
      | cons c rest => simp at hl
    | succ f =>
      cases l with
      | nil => rfl
      | cons c rest =>
        simp only [List.length_cons] at hl
        have hstep := step_fst_length cfg c rest s
        have e1 : loopF cfg f (step cfg c rest s).1 (step cfg c rest s).2 =
            loopF cfg (step cfg c rest s).1.length (step cfg c rest s).1
              (step cfg c rest s).2 :=
          ih f (by omega) _ _ (by omega)
        have e2 : loopF cfg rest.length (step cfg c rest s).1
              (step cfg c rest s).2 =
            loopF cfg (step cfg c rest s).1.length (step cfg c rest s).1
              (step cfg c rest s).2 :=
          ih rest.length (by omega) _ _ hstep
        calc loopF cfg (f + 1) (c :: rest) s
            = loopF cfg f (step cfg c rest s).1 (step cfg c rest s).2 := rfl
          _ = loopF cfg (step cfg c rest s).1.length (step cfg c rest s).1
                (step cfg c rest s).2 := e1
          _ = loopF cfg rest.length (step cfg c rest s).1
                (step cfg c rest s).2 := e2.symm
          _ = loopF cfg (c :: rest).length (c :: rest) s := rfl

theorem run_nil (cfg : Config) (s : TState) : run cfg [] s = s := rfl

theorem run_cons (cfg : Config) (c : Char) (rest : List Char) (s : TState) :
    run cfg (c :: rest) s =
      run cfg (step cfg c rest s).1 (step cfg c rest s).2 := by
  unfold run
  have : loopF cfg (c :: rest).length (c :: rest) s =
      loopF cfg rest.length (step cfg c rest s).1 (step cfg c rest s).2 := rfl
  rw [this, loopF_fuel cfg rest.length _ _ (step_fst_length cfg c rest s)]

/-! ### Facts about JavaScript trim -/

theorem trimJS_eq_rdropWhile (l : List Char) :
    trimJS l = (l.dropWhile isJSWS).rdropWhile isJSWS := rfl

theorem trimJS_nil : trimJS [] = [] := rfl

theorem head?_mem {α : Type _} {l : List α} {a : α} (h : l.head? = some a) :
    a ∈ l := by
  cases l with
  | nil => simp at h
  | cons b x =>
    simp only [List.head?_cons, Option.some.injEq] at h
    subst h
    exact List.mem_cons_self b x

theorem head?_trimJS_not_ws (l : List Char) (c : Char)
    (h : (trimJS l).head? = some c) : isJSWS c = false := by
  rw [trimJS_eq_rdropWhile] at h
  obtain ⟨t, ht⟩ := List.rdropWhile_prefix isJSWS (l.dropWhile isJSWS)
  rcases he : (l.dropWhile isJSWS).rdropWhile isJSWS with _ | ⟨a, x⟩
  · rw [he] at h; simp at h
  · rw [he] at h ht
    simp only [List.head?_cons, Option.some.injEq] at h
    rw [← h]
    have hh : (l.dropWhile isJSWS).head? = some a := by
      rw [← ht]; rfl
    have h2 := List.head?_dropWhile_not isJSWS l
    rw [hh] at h2
    exact h2

theorem trimJS_eq_nil_iff (l : List Char) :
    trimJS l = [] ↔ ∀ c ∈ l, isJSWS c := by
  rw [trimJS_eq_rdropWhile]
  constructor
  · intro h c hc
    rw [List.rdropWhile_eq_nil_iff] at h
    by_cases hd : l.dropWhile isJSWS = []
    · rw [List.dropWhile_eq_nil_iff] at hd
      exact hd c hc
    · exfalso
      rcases he : l.dropWhile isJSWS with _ | ⟨a, x⟩
      · exact hd he
      · have ha : isJSWS a := h a (by rw [he]; exact List.mem_cons_self a x)
        have := List.head?_dropWhile_not isJSWS l
        rw [he] at this
        simp only [List.head?_cons] at this
        rw [this] at ha
        exact Bool.false_ne_true ha
  · intro h
    have hd : l.dropWhile isJSWS = [] := List.dropWhile_eq_nil_iff.mpr h
    rw [hd]
    rfl

theorem trimJS_subset (l : List Char) : ∀ c ∈ trimJS l, c ∈ l := by
  intro c hc
  rw [trimJS_eq_rdropWhile] at hc
  have h1 : c ∈ l.dropWhile isJSWS :=
    (List.rdropWhile_prefix isJSWS (l.dropWhile isJSWS)).subset hc
  exact (List.dropWhile_suffix isJSWS).subset h1

theorem trimJS_cons_of_not_ws (c : Char) (t : List Char)
    (h : isJSWS c = false) : (trimJS (c :: t)).head? = some c := by
  rw [trimJS_eq_rdropWhile, List.dropWhile_cons_of_neg (by simp [h])]
  obtain ⟨u, hu⟩ := List.rdropWhile_prefix isJSWS (c :: t)
  rcases he : (c :: t).rdropWhile isJSWS with _ | ⟨a, x⟩
  · exfalso
    rw [List.rdropWhile_eq_nil_iff] at he
    have := he c (List.mem_cons_self c t)
    rw [h] at this
    exact Bool.false_ne_true this
  · rw [he] at hu
    simp only [List.cons_append] at hu
    have ha : a = c := (List.cons.injEq _ _ _ _).mp hu |>.1
    rw [ha]
    rfl

theorem trimJS_idem (l : List Char) : trimJS (trimJS l) = trimJS l := by
  rcases he : trimJS l with _ | ⟨a, x⟩
  · rfl
  · have ha : isJSWS a = false := head?_trimJS_not_ws l a (by rw [he]; rfl)
    rw [trimJS_eq_rdropWhile, List.dropWhile_cons_of_neg (by simp [ha])]
    have h2 : trimJS l = (l.dropWhile isJSWS).rdropWhile isJSWS :=
      trimJS_eq_rdropWhile l
    rw [he] at h2
    rw [h2, List.rdropWhile_idempotent]

/-! ### Facts about field finalization -/

theorem finalizeField_nil (q t : Bool) : finalizeField q t [] = [] := by
  cases q <;> cases t <;> rfl

theorem finalizeField_no_quote (t : Bool) (f : List Char) (h : '"' ∉ f) :
    finalizeField false t f = (if t then trimJS f else f) := by
  unfold finalizeField
  have hf : (if ¬ (false : Bool) ∧ t then trimJS f else f) =
      (if t then trimJS f else f) := by
    cases t <;> simp
  rw [hf]
  have hq : ¬ ((if t then trimJS f else f).head? = some '"') := by
    intro hh
    have hmem : '"' ∈ (if t then trimJS f else f) := head?_mem hh
    cases t with
    | false => rw [if_neg (by simp)] at hmem; exact h hmem
    | true => rw [if_pos rfl] at hmem; exact h (trimJS_subset f '"' hmem)
  rw [if_neg]
  intro hc
  exact hq hc.2.1


theorem replDQ_cons_ne (c : Char) (l : List Char) (hc : c ≠ '"') :
    replDQ (c :: l) = c :: replDQ l := by
  rw [replDQ.eq_def]
  split <;> simp_all

/-- C1: For every input string and every configuration, `parseCSV`
terminates after a number of loop iterations bounded by the input length
(fuel equal to the remaining length always suffices: adding any extra fuel
changes nothing), and it is a total function returning a sequence of
records on any input, including malformed input: an unescaped quote in the
middle of a field, an unterminated quote, a stray NUL character, and ragged
rows all produce ordinary results. -/
theorem c1_total_linear_termination :
    (∀ (cfg : Config) (l : List Char) (s : TState) (k : Nat),
        loopF cfg (l.length + k) l s = loopF cfg l.length l s) ∧
    tokenize defaultCfg "a\"b".toList = [["a\"b".toList]] ∧
    tokenize defaultCfg "\"x".toList = [["\"x".toList]] ∧
    tokenize defaultCfg "a\x00b".toList = [["a".toList], ["b".toList]] ∧
    parseCSV defaultCfg "h1,h2\nv1\nw1,w2,w3".toList =
      [[("h1".toList, "v1".toList), ("h2".toList, "".toList)],
       [("h1".toList, "w1".toList), ("h2".toList, "w2".toList)]] ∧
    parseCSV defaultCfg [] = [] := by
  refine ⟨fun cfg l s k => loopF_fuel cfg (l.length + k) l s (Nat.le_add_right _ _),
    ?_, ?_, ?_, ?_, ?_⟩ <;> decide

/-- C2: Field finalization behaves as specified: whenever the (possibly
trimmed) field buffer starts and ends with a double quote and has length at
least 2, exactly one leading and one trailing quote are stripped and the
doubled-quote collapsing map is applied to the interior (that map turns
each doubled pair into a single quote and leaves other characters alone);
in particular the input `"a""b"` tokenizes as the lone field `a"b`. -/
theorem c2_field_finalization :
    (∀ (q t : Bool) (f : List Char),
        2 ≤ (if ¬ q ∧ t then trimJS f else f).length →
        (if ¬ q ∧ t then trimJS f else f).head? = some '"' →
        (if ¬ q ∧ t then trimJS f else f).getLast? = some '"' →
        finalizeField q t f =
          replDQ (((if ¬ q ∧ t then trimJS f else f).drop 1).dropLast)) ∧
    (∀ l, replDQ ('"' :: '"' :: l) = '"' :: replDQ l) ∧
    (∀ (c : Char) l, c ≠ '"' → replDQ (c :: l) = c :: replDQ l) ∧
    tokenize defaultCfg "\"a\"\"b\"".toList = [["a\"b".toList]] := by
  refine ⟨?_, fun l => rfl, replDQ_cons_ne, by decide⟩
  intro q t f h1 h2 h3
  simp only [finalizeField]
  rw [if_pos ⟨h1, h2, h3⟩]

theorem c2_field_finalization_witness :
    finalizeField false true " \"x\"\"y\" ".toList =
      replDQ ((((if ¬ (false : Bool) ∧ (true : Bool)
        then trimJS " \"x\"\"y\" ".toList
        else " \"x\"\"y\" ".toList)).drop 1).dropLast) ∧
    replDQ (' ' :: ['a']) = ' ' :: replDQ ['a'] :=
  ⟨c2_field_finalization.1 false true _ (by decide) (by decide) (by decide),
   c2_field_finalization.2.2.1 ' ' ['a'] (by decide)⟩

/-- C9: If the input ends while a quoted field is still open, the
accumulated field is emitted with its raw leading quote retained and with
no trimming: finalization with the quote flag set and no closing quote at
the end of the buffer returns the buffer unchanged, and the input `a,"bc`
with `hasHeader := false` yields one record whose second field is `"bc`
(and an open-quote field keeps its interior spaces). -/
theorem c9_unterminated_quote :
    (∀ (t : Bool) (f : List Char), f.getLast? ≠ some '"' →
        finalizeField true t f = f) ∧
    parseCSV { defaultCfg with hasHeader := false } "a,\"bc".toList =
      [[("field1".toList, "a".toList), ("field2".toList, "\"bc".toList)]] ∧
    tokenize defaultCfg "a,\" b".toList =
      [["a".toList, "\" b".toList]] := by
  refine ⟨?_, by decide, by decide⟩
  intro t f h
  simp only [finalizeField, not_true, false_and, if_false]
  rw [if_neg (fun hc => h hc.2.2)]

theorem c9_unterminated_quote_witness :
    finalizeField true true "\" bc".toList = "\" bc".toList :=
  c9_unterminated_quote.1 true "\" bc".toList (by decide)

/-- C10: Escaped quotes are collapsed twice: the character scan already
reduces each doubled pair inside a quoted field to a single quote (the loop
leaves the raw buffer `"a""b"` for the input `"a""""b"`), and the
finalizer then collapses doubled quotes again, so the lone quoted field
`"a""""b"` produces the value `a"b` rather than `a""b`. -/
theorem c10_double_quote_collapse :
    (run defaultCfg (normalizeInput "\"a\"\"\"\"b\"".toList) initState).field =
      "\"a\"\"b\"".toList ∧
    tokenize defaultCfg "\"a\"\"\"\"b\"".toList = [["a\"b".toList]] ∧
    tokenize defaultCfg "\"a\"\"\"\"b\"".toList ≠ [["a\"\"b".toList]] := by
  refine ⟨by decide, by decide, by decide⟩


/-! ### Newline normalization -/

/-- Replace every newline by a CRLF pair (used to state line-ending
independence). -/
def substCRLF : List Char → List Char
  | [] => []
  | '\n' :: rest => '\r' :: '\n' :: substCRLF rest
  | c :: rest => c :: substCRLF rest

/-- Replace every newline by a lone carriage return. -/
def substCR (l : List Char) : List Char :=
  l.map (fun c => if c = '\n' then '\r' else c)

theorem normCRLF_cons_ne (c : Char) (rest : List Char) (hc : c ≠ '\r') :
    normCRLF (c :: rest) = c :: normCRLF rest := by
  rw [normCRLF.eq_def]
  split <;> simp_all

theorem normCRLF_cr_cons (rest : List Char) (h : rest.head? ≠ some '\n') :
    normCRLF ('\r' :: rest) = '\r' :: normCRLF rest := by
  rw [normCRLF.eq_def]
  split
  · rename_i heq
    exfalso
    apply h
    rw [((List.cons.injEq _ _ _ _).mp heq).2]
    rfl
  · rename_i heq
    have h12 := (List.cons.injEq _ _ _ _).mp heq
    rw [← h12.1, ← h12.2]
  · rename_i heq
    exact absurd heq (List.cons_ne_nil _ _)

theorem normCR_cons_ne (c : Char) (rest : List Char) (hc : c ≠ '\r') :
    normCR (c :: rest) = c :: normCR rest := by
  rw [normCR.eq_def]
  split <;> simp_all

theorem substCRLF_cons_ne (c : Char) (rest : List Char) (hc : c ≠ '\n') :
    substCRLF (c :: rest) = c :: substCRLF rest := by
  rw [substCRLF.eq_def]
  split <;> simp_all

theorem normCRLF_eq_self (l : List Char) (h : '\r' ∉ l) : normCRLF l = l := by
  induction l with
  | nil => rfl
  | cons c rest ih =>
    have hc : c ≠ '\r' := fun hh => h (hh ▸ List.mem_cons_self c rest)
    rw [normCRLF_cons_ne c rest hc, ih (fun hm => h (List.mem_cons_of_mem c hm))]

theorem normCR_eq_self (l : List Char) (h : '\r' ∉ l) : normCR l = l := by
  induction l with
  | nil => rfl
  | cons c rest ih =>
    have hc : c ≠ '\r' := fun hh => h (hh ▸ List.mem_cons_self c rest)
    rw [normCR_cons_ne c rest hc, ih (fun hm => h (List.mem_cons_of_mem c hm))]

theorem normCRLF_substCRLF (l : List Char) (h : '\r' ∉ l) :
    normCRLF (substCRLF l) = l := by
  induction l with
  | nil => rfl
  | cons c rest ih =>
    have hr : '\r' ∉ rest := fun hm => h (List.mem_cons_of_mem c hm)
    by_cases hc : c = '\n'
    · subst hc
      have h1 : substCRLF ('\n' :: rest) = '\r' :: '\n' :: substCRLF rest := rfl
      have h2 : normCRLF ('\r' :: '\n' :: substCRLF rest) =
          '\n' :: normCRLF (substCRLF rest) := rfl
      rw [h1, h2, ih hr]
    · have hcr : c ≠ '\r' := fun hh => h (hh ▸ List.mem_cons_self c rest)
      rw [substCRLF_cons_ne c rest hc, normCRLF_cons_ne c _ hcr, ih hr]

theorem substCR_cons (c : Char) (rest : List Char) :
    substCR (c :: rest) =
      (if c = '\n' then '\r' else c) :: substCR rest := by
  simp [substCR]

theorem not_lf_mem_substCR (l : List Char) : '\n' ∉ substCR l := by
  intro hm
  rw [substCR, List.mem_map] at hm
  obtain ⟨c, _, he⟩ := hm
  by_cases h : c = '\n'
  · rw [if_pos h] at he
    exact absurd he (by decide)
  · rw [if_neg h] at he
    exact h he

theorem normCRLF_eq_self_no_lf (l : List Char) (h : '\n' ∉ l) :
    normCRLF l = l := by
  induction l with
  | nil => rfl
  | cons c rest ih =>
    have hr : '\n' ∉ rest := fun hm => h (List.mem_cons_of_mem c hm)
    by_cases hc : c = '\r'
    · subst hc
      rw [normCRLF_cr_cons rest (fun hh => hr (head?_mem hh)), ih hr]
    · rw [normCRLF_cons_ne c rest hc, ih hr]

theorem normCR_substCR (l : List Char) (h : '\r' ∉ l) :
    normCR (substCR l) = l := by
  induction l with
  | nil => rfl
  | cons c rest ih =>
    have hr : '\r' ∉ rest := fun hm => h (List.mem_cons_of_mem c hm)
    by_cases hc : c = '\n'
    · subst hc
      rw [substCR_cons, if_pos rfl,
        show normCR ('\r' :: substCR rest) = '\n' :: normCR (substCR rest)
          from rfl, ih hr]
    · have hcr : c ≠ '\r' := fun hh => h (hh ▸ List.mem_cons_self c rest)
      rw [substCR_cons, if_neg hc, normCR_cons_ne c _ hcr, ih hr]

theorem stripBOM_cons_ne (c : Char) (rest : List Char) (h : c ≠ '\uFEFF') :
    stripBOM (c :: rest) = c :: rest := by
  simp [stripBOM, h]

theorem stripBOM_bom (rest : List Char) : stripBOM ('\uFEFF' :: rest) = rest := by
  simp [stripBOM]

theorem stripBOM_substCRLF (l : List Char) :
    stripBOM (substCRLF l) = substCRLF (stripBOM l) := by
  cases l with
  | nil => rfl
  | cons c rest =>
    by_cases hc : c = '\n'
    · subst hc
      rw [show substCRLF ('\n' :: rest) = '\r' :: '\n' :: substCRLF rest
            from rfl,
        stripBOM_cons_ne _ _ (by decide), stripBOM_cons_ne _ _ (by decide)]
      rfl
    · by_cases hb : c = '\uFEFF'
      · subst hb
        rw [substCRLF_cons_ne _ rest hc, stripBOM_bom, stripBOM_bom]
      · rw [substCRLF_cons_ne _ rest hc, stripBOM_cons_ne _ _ hb,
          stripBOM_cons_ne _ _ hb, substCRLF_cons_ne _ rest hc]

theorem stripBOM_substCR (l : List Char) :
    stripBOM (substCR l) = substCR (stripBOM l) := by
  cases l with
  | nil => rfl
  | cons c rest =>
    rw [substCR_cons]
    by_cases hc : c = '\n'
    · subst hc
      rw [if_pos rfl, stripBOM_cons_ne _ _ (by decide),
        stripBOM_cons_ne _ _ (by decide), substCR_cons, if_pos rfl]
    · rw [if_neg hc]
      by_cases hb : c = '\uFEFF'
      · subst hb
        rw [stripBOM_bom, stripBOM_bom]
      · rw [stripBOM_cons_ne _ _ hb, stripBOM_cons_ne _ _ hb, substCR_cons,
          if_neg hc]

theorem mem_stripBOM (l : List Char) (c : Char) (h : c ∈ stripBOM l) :
    c ∈ l := by
  cases l with
  | nil => exact absurd h (List.not_mem_nil c)
  | cons a rest =>
    simp only [stripBOM] at h
    by_cases hb : a = '\uFEFF'
    · rw [if_pos hb] at h
      exact List.mem_cons_of_mem a h
    · rwa [if_neg hb] at h

theorem normalizeInput_substCRLF (d : List Char) (h : '\r' ∉ d) :
    normalizeInput (substCRLF d) = normalizeInput d := by
  have hs : '\r' ∉ stripBOM d := fun hm => h (mem_stripBOM d '\r' hm)
  unfold normalizeInput
  rw [stripBOM_substCRLF, normCRLF_substCRLF _ hs, normCR_eq_self _ hs,
    normCRLF_eq_self _ hs, normCR_eq_self _ hs]

theorem normalizeInput_substCR (d : List Char) (h : '\r' ∉ d) :
    normalizeInput (substCR d) = normalizeInput d := by
  have hs : '\r' ∉ stripBOM d := fun hm => h (mem_stripBOM d '\r' hm)
  unfold normalizeInput
  rw [stripBOM_substCR, normCRLF_eq_self_no_lf _ (not_lf_mem_substCR _),
    normCR_substCR _ hs, normCRLF_eq_self _ hs, normCR_eq_self _ hs]

theorem tokenize_congr_norm (cfg : Config) (x y : List Char)
    (h : normalizeInput x = normalizeInput y) :
    tokenize cfg x = tokenize cfg y := by
  unfold tokenize
  rw [h]

/-- C6: Line-ending independence.  For every input without carriage
returns, replacing every newline with a CRLF pair, or with a lone carriage
return, yields an input on which the parser produces exactly the same rows
and the same records, because normalization rewrites CRLF pairs to
newlines first and remaining carriage returns to newlines second. -/
theorem c6_line_ending_independence :
    ∀ (cfg : Config) (data : List Char), '\r' ∉ data →
      tokenize cfg (substCRLF data) = tokenize cfg data ∧
      tokenize cfg (substCR data) = tokenize cfg data ∧
      parseCSV cfg (substCRLF data) = parseCSV cfg data ∧
      parseCSV cfg (substCR data) = parseCSV cfg data := by
  intro cfg data h
  have h1 := tokenize_congr_norm cfg (substCRLF data) data
    (normalizeInput_substCRLF data h)
  have h2 := tokenize_congr_norm cfg (substCR data) data
    (normalizeInput_substCR data h)
  exact ⟨h1, h2, by unfold parseCSV; rw [h1], by unfold parseCSV; rw [h2]⟩

theorem c6_line_ending_independence_witness :
    tokenize defaultCfg (substCRLF "a,b\nc,d".toList) =
      tokenize defaultCfg "a,b\nc,d".toList ∧
    tokenize defaultCfg (substCR "a,b\nc,d".toList) =
      tokenize defaultCfg "a,b\nc,d".toList :=
  ⟨(c6_line_ending_independence defaultCfg "a,b\nc,d".toList (by decide)).1,
   (c6_line_ending_independence defaultCfg "a,b\nc,d".toList (by decide)).2.1⟩


/-- C5: Comment suppression.  A line whose very first character is the
comment character contributes no output row (`# comment\na,b\n` yields
exactly the row `["a","b"]`, and at the loop level a comment-initial line
is skipped without touching the state), and every finalized row whose
first field, after trimming, begins with the comment character is
discarded by `pushRow` — including rows whose first field was quoted in
the source (`"#x",y`). -/
theorem c5_comment_suppression :
    tokenize defaultCfg "# comment\na,b\n".toList =
      [["a".toList, "b".toList]] ∧
    tokenize defaultCfg "\"#x\",y\na,b\n".toList =
      [["a".toList, "b".toList]] ∧
    (∀ (cc : Char) (s : TState) (f : List Char) (tl : List (List Char)),
        s.row = f :: tl → (trimJS f).head? = some cc →
        (pushRow cc s).rows = s.rows ∧ (pushRow cc s).row = []) ∧
    (∀ (cfg : Config) (L rest : List Char) (s : TState),
        s.lineStart = true → '\n' ∉ cfg.commentChar :: L →
        run cfg ((cfg.commentChar :: L) ++ '\n' :: rest) s =
          run cfg rest s) := by
  refine ⟨by decide, by decide, ?_, ?_⟩
  · intro cc s f tl hrow hcc
    unfold pushRow
    by_cases hb : isBlankRow s.row
    · rw [if_pos hb]
      exact ⟨rfl, rfl⟩
    · rw [if_neg hb, if_pos ?hcond]
      · exact ⟨rfl, rfl⟩
      case hcond =>
        rw [hrow]
        simp [isCommentRow, hcc]
  · intro cfg L rest s hls hnl
    rw [List.cons_append, run_cons]
    have hdw : (cfg.commentChar :: (L ++ '\n' :: rest)).dropWhile
        (fun x => x != '\n') = '\n' :: rest := by
      rw [show cfg.commentChar :: (L ++ '\n' :: rest) =
            (cfg.commentChar :: L) ++ '\n' :: rest from rfl]
      rw [List.dropWhile_append_of_pos (by
        intro a ha
        have : a ≠ '\n' := fun hh => hnl (hh ▸ ha)
        simpa using this)]
      rw [List.dropWhile_cons_of_neg (by simp)]
    have hstep : step cfg cfg.commentChar (L ++ '\n' :: rest) s =
        (rest, s) := by
      unfold step
      rw [if_pos ⟨hls, rfl⟩, hdw]
      rfl
    rw [hstep]

theorem c5_comment_suppression_witness :
    (pushRow '#'
        { rows := [["a".toList, "b".toList]], row := ["#x".toList],
          field := [], inQuotes := false, lineStart := true }).rows =
      [["a".toList, "b".toList]] ∧
    run defaultCfg (('#' :: " hi".toList) ++ '\n' :: "a".toList)
        initState =
      run defaultCfg "a".toList initState :=
  ⟨(c5_comment_suppression.2.2.1 '#' _ "#x".toList [] rfl (by decide)).1,
   by
    have h := c5_comment_suppression.2.2.2 defaultCfg " hi".toList
      "a".toList initState rfl (by decide)
    exact h⟩

/-! ### Record building -/

theorem objInsert_of_not_mem (obj : List (List Char × List Char))
    (k v : List Char) (h : ∀ p ∈ obj, p.1 ≠ k) :
    objInsert obj k v = obj ++ [(k, v)] := by
  have hany : ¬ (obj.any (fun p => p.1 == k) = true) := by
    simp only [List.any_eq_true, beq_iff_eq]
    rintro ⟨p, hp, he⟩
    exact h p hp he
  unfold objInsert
  rw [if_neg hany]

theorem buildObj_aux (r : List (List Char)) :
    ∀ (hs : List (List Char)), hs.Nodup →
      ∀ (n : Nat) (obj : List (List Char × List Char)),
        (∀ p ∈ obj, p.1 ∉ hs) →
        ((List.enumFrom n hs).foldl
            (fun obj hj => objInsert obj hj.2 (r.getD hj.1 [])) obj) =
          obj ++ (List.enumFrom n hs).map
            (fun jh => (jh.2, r.getD jh.1 [])) := by
  intro hs
  induction hs with
  | nil => intro _ n obj _; simp [List.enumFrom]
  | cons h0 tl ih =>
    intro hnd n obj hdisj
    have hne : ∀ p ∈ obj, p.1 ≠ h0 := fun p hp hh =>
      hdisj p hp (hh ▸ List.mem_cons_self h0 tl)
    simp only [List.enumFrom, List.foldl_cons, List.map_cons]
    rw [objInsert_of_not_mem obj h0 _ hne]
    rw [ih hnd.of_cons (n + 1) (obj ++ [(h0, r.getD n [])]) ?hd]
    · simp
    case hd =>
      intro p hp
      rcases List.mem_append.mp hp with hp1 | hp2
      · exact fun hm => hdisj p hp1 (List.mem_cons_of_mem h0 hm)
      · have hpe : p = (h0, r.getD n []) := by simpa using hp2
        rw [hpe]
        exact (List.nodup_cons.mp hnd).1

/-- C7: Ragged-row record building.  With duplicate-free header names each
header name maps to the row value at the same position (empty string when
the row is shorter), and row positions beyond the header count are
dropped; concretely, header `a,b,c` with data row `1,2` gives the record
`{a:1, b:2, c:""}` and with data row `1,2,3,4` gives `{a:1, b:2, c:3}`. -/
theorem c7_record_building :
    (∀ (headers r : List (List Char)), headers.Nodup →
        buildObj headers r =
          headers.enum.map (fun jh => (jh.2, r.getD jh.1 []))) ∧
    parseCSV defaultCfg "a,b,c\n1,2\n".toList =
      [[("a".toList, "1".toList), ("b".toList, "2".toList),
        ("c".toList, [])]] ∧
    parseCSV defaultCfg "a,b,c\n1,2,3,4\n".toList =
      [[("a".toList, "1".toList), ("b".toList, "2".toList),
        ("c".toList, "3".toList)]] := by
  refine ⟨?_, by decide, by decide⟩
  intro headers r hnd
  unfold buildObj
  have he : headers.enum = List.enumFrom 0 headers := rfl
  rw [he, buildObj_aux r headers hnd 0 []
    (by intro p hp; exact absurd hp (List.not_mem_nil p))]
  simp

theorem c7_record_building_witness :
    buildObj ["a".toList, "b".toList] ["1".toList] =
      (["a".toList, "b".toList].enum).map
        (fun jh => (jh.2, (["1".toList]).getD jh.1 [])) :=
  c7_record_building.1 ["a".toList, "b".toList] ["1".toList] (by decide)


/-! ### Stepping equations for the line splitter -/

theorem splitGo_qq (rest cur : List Char) :
    splitGo ('"' :: '"' :: rest) true cur = splitGo rest true (cur ++ ['"']) :=
  rfl

theorem segs_qq (rest cur : List Char) :
    segs ('"' :: '"' :: rest) true cur = segs rest true (cur ++ ['"']) := rfl

theorem splitGo_quote (rest cur : List Char) (q : Bool)
    (h : q = false ∨ rest.head? ≠ some '"') :
    splitGo ('"' :: rest) q cur = splitGo rest (!q) (cur ++ ['"']) := by
  rw [splitGo.eq_def]
  split <;> try simp_all
  rename_i heq
  obtain ⟨h1, h2⟩ := heq
  subst h1
  simp_all

theorem segs_quote (rest cur : List Char) (q : Bool)
    (h : q = false ∨ rest.head? ≠ some '"') :
    segs ('"' :: rest) q cur = segs rest (!q) (cur ++ ['"']) := by
  rw [segs.eq_def]
  split <;> try simp_all
  rename_i heq
  obtain ⟨h1, h2⟩ := heq
  subst h1
  simp_all

theorem splitGo_nl_q (rest cur : List Char) :
    splitGo ('\n' :: rest) true cur = splitGo rest true (cur ++ ['\n']) := rfl

theorem segs_nl_q (rest cur : List Char) :
    segs ('\n' :: rest) true cur = segs rest true (cur ++ ['\n']) := rfl

theorem splitGo_nl (rest cur : List Char) :
    splitGo ('\n' :: rest) false cur =
      (if (trimJS cur).isEmpty then [] else [cur]) ++
        splitGo rest false [] := rfl

theorem segs_nl (rest cur : List Char) :
    segs ('\n' :: rest) false cur = cur :: segs rest false [] := rfl

theorem splitGo_crlf (rest cur : List Char) :
    splitGo ('\r' :: '\n' :: rest) false cur =
      (if (trimJS cur).isEmpty then [] else [cur]) ++
        splitGo rest false [] := rfl

theorem segs_crlf (rest cur : List Char) :
    segs ('\r' :: '\n' :: rest) false cur = cur :: segs rest false [] := rfl

theorem splitGo_cr_q (rest cur : List Char) :
    splitGo ('\r' :: rest) true cur = splitGo rest true (cur ++ ['\r']) := by
  rw [splitGo.eq_def]
  split <;> try simp_all
  rename_i heq
  obtain ⟨h1, h2⟩ := heq
  subst h1
  simp_all

theorem segs_cr_q (rest cur : List Char) :
    segs ('\r' :: rest) true cur = segs rest true (cur ++ ['\r']) := by
  rw [segs.eq_def]
  split <;> try simp_all
  rename_i heq
  obtain ⟨h1, h2⟩ := heq
  subst h1
  simp_all

theorem splitGo_cr (rest cur : List Char) (h : rest.head? ≠ some '\n') :
    splitGo ('\r' :: rest) false cur =
      (if (trimJS cur).isEmpty then [] else [cur]) ++
        splitGo rest false [] := by
  rw [splitGo.eq_def]
  split <;> try simp_all
  rename_i heq
  obtain ⟨h1, h2⟩ := heq
  subst h1
  simp_all

theorem segs_cr (rest cur : List Char) (h : rest.head? ≠ some '\n') :
    segs ('\r' :: rest) false cur = cur :: segs rest false [] := by
  rw [segs.eq_def]
  split <;> try simp_all
  rename_i heq
  obtain ⟨h1, h2⟩ := heq
  subst h1
  simp_all

theorem splitGo_ordinary (c : Char) (rest cur : List Char) (q : Bool)
    (h1 : c ≠ '\n') (h2 : c ≠ '\r') (h3 : c ≠ '"') :
    splitGo (c :: rest) q cur = splitGo rest q (cur ++ [c]) := by
  rw [splitGo.eq_def]
  split <;> simp_all

theorem segs_ordinary (c : Char) (rest cur : List Char) (q : Bool)
    (h1 : c ≠ '\n') (h2 : c ≠ '\r') (h3 : c ≠ '"') :
    segs (c :: rest) q cur = segs rest q (cur ++ [c]) := by
  rw [segs.eq_def]
  split <;> simp_all

theorem splitGo_nil_case (q : Bool) (cur : List Char) :
    splitGo [] q cur =
      (segs [] q cur).filter (fun L => !(trimJS L).isEmpty) := by
  by_cases hb : (trimJS cur).isEmpty <;>
    simp [splitGo, segs, List.filter_cons, hb]

/-- The line splitter equals the raw quote-aware segmentation followed by
removal of blank segments. -/
theorem splitGo_eq_filter_segs :
    ∀ (l : List Char) (q : Bool) (cur : List Char),
      splitGo l q cur =
        (segs l q cur).filter (fun L => !(trimJS L).isEmpty) := by
  have main : ∀ (n : Nat) (l : List Char), l.length ≤ n →
      ∀ (q : Bool) (cur : List Char),
        splitGo l q cur =
          (segs l q cur).filter (fun L => !(trimJS L).isEmpty) := by
    intro n
    induction n with
    | zero =>
      intro l hl q cur
      have hnil : l = [] := by cases l <;> simp_all
      subst hnil
      exact splitGo_nil_case q cur
    | succ n ih =>
      intro l hl q cur
      have boundary : ∀ (b : List Char), b.length ≤ n → ∀ (cu : List Char),
          (if (trimJS cu).isEmpty then [] else [cu]) ++ splitGo b false [] =
            (cu :: segs b false []).filter
              (fun L => !(trimJS L).isEmpty) := by
        intro b hb cu
        rw [List.filter_cons]
        by_cases hcb : (trimJS cu).isEmpty
        · simp [hcb, ih b hb false []]
        · simp [hcb, ih b hb false []]
      cases l with
      | nil => exact splitGo_nil_case q cur
      | cons c rest =>
        simp only [List.length_cons] at hl
        by_cases hq : c = '"'
        · subst hq
          cases q with
          | true =>
            cases rest with
            | nil =>
              rw [splitGo_quote [] cur true (Or.inr (by simp)),
                segs_quote [] cur true (Or.inr (by simp))]
              exact ih [] (by omega) false (cur ++ ['"'])
            | cons a r2 =>
              by_cases ha : a = '"'
              · subst ha
                rw [splitGo_qq, segs_qq]
                exact ih r2 (by simp only [List.length_cons] at hl; omega)
                  true (cur ++ ['"'])
              · rw [splitGo_quote (a :: r2) cur true (Or.inr (by simp [ha])),
                  segs_quote (a :: r2) cur true (Or.inr (by simp [ha]))]
                exact ih (a :: r2)
                  (by simp only [List.length_cons] at hl ⊢; omega) false
                  (cur ++ ['"'])
          | false =>
            rw [splitGo_quote rest cur false (Or.inl rfl),
              segs_quote rest cur false (Or.inl rfl)]
            exact ih rest (by omega) true (cur ++ ['"'])
        · by_cases hn : c = '\n'
          · subst hn
            cases q with
            | true =>
              rw [splitGo_nl_q, segs_nl_q]
              exact ih rest (by omega) true (cur ++ ['\n'])
            | false =>
              rw [splitGo_nl, segs_nl]
              exact boundary rest (by omega) cur
          · by_cases hr : c = '\r'
            · subst hr
              cases q with
              | true =>
                rw [splitGo_cr_q, segs_cr_q]
                exact ih rest (by omega) true (cur ++ ['\r'])
              | false =>
                cases rest with
                | nil =>
                  rw [splitGo_cr [] cur (by simp), segs_cr [] cur (by simp)]
                  exact boundary [] (by omega) cur
                | cons a r2 =>
                  by_cases ha : a = '\n'
                  · subst ha
                    rw [splitGo_crlf, segs_crlf]
                    exact boundary r2
                      (by simp only [List.length_cons] at hl; omega) cur
                  · rw [splitGo_cr (a :: r2) cur (by simp [ha]),
                      segs_cr (a :: r2) cur (by simp [ha])]
                    exact boundary (a :: r2)
                      (by simp only [List.length_cons] at hl ⊢; omega) cur
            · rw [splitGo_ordinary c rest cur q hn hr hq,
                segs_ordinary c rest cur q hn hr hq]
              exact ih rest (by omega) q (cur ++ [c])
  intro l q cur
  exact main l.length l le_rfl q cur

theorem segs_clean_append_nl (a : List Char) :
    ∀ (b cur : List Char), (∀ c ∈ a, c ≠ '\n' ∧ c ≠ '\r' ∧ c ≠ '"') →
      segs (a ++ '\n' :: b) false cur = (cur ++ a) :: segs b false [] := by
  induction a with
  | nil => intro b cur _; simp [segs_nl]
  | cons c a2 ih =>
    intro b cur h
    have hc := h c (List.mem_cons_self c a2)
    rw [List.cons_append,
      segs_ordinary c (a2 ++ '\n' :: b) cur false hc.1 hc.2.1 hc.2.2,
      ih b (cur ++ [c]) (fun x hx => h x (List.mem_cons_of_mem c hx))]
    simp

theorem segs_clean_single (a : List Char) :
    ∀ (cur : List Char), (∀ c ∈ a, c ≠ '\n' ∧ c ≠ '\r' ∧ c ≠ '"') →
      segs a false cur = [cur ++ a] := by
  induction a with
  | nil => intro cur _; simp [segs]
  | cons c a2 ih =>
    intro cur h
    have hc := h c (List.mem_cons_self c a2)
    rw [segs_ordinary c a2 cur false hc.1 hc.2.1 hc.2.2,
      ih (cur ++ [c]) (fun x hx => h x (List.mem_cons_of_mem c hx))]
    simp

theorem segs_clean_append_crlf (a : List Char) :
    ∀ (b cur : List Char), (∀ c ∈ a, c ≠ '\n' ∧ c ≠ '\r' ∧ c ≠ '"') →
      segs (a ++ '\r' :: '\n' :: b) false cur =
        (cur ++ a) :: segs b false [] := by
  induction a with
  | nil => intro b cur _; simp [segs_crlf]
  | cons c a2 ih =>
    intro b cur h
    have hc := h c (List.mem_cons_self c a2)
    rw [List.cons_append,
      segs_ordinary c (a2 ++ '\r' :: '\n' :: b) cur false hc.1 hc.2.1 hc.2.2,
      ih b (cur ++ [c]) (fun x hx => h x (List.mem_cons_of_mem c hx))]
    simp

theorem segs_clean_append_cr (a : List Char) :
    ∀ (b cur : List Char), (∀ c ∈ a, c ≠ '\n' ∧ c ≠ '\r' ∧ c ≠ '"') →
      b.head? ≠ some '\n' →
      segs (a ++ '\r' :: b) false cur = (cur ++ a) :: segs b false [] := by
  induction a with
  | nil => intro b cur _ hb; simp [segs_cr b cur hb]
  | cons c a2 ih =>
    intro b cur h hb
    have hc := h c (List.mem_cons_self c a2)
    rw [List.cons_append,
      segs_ordinary c (a2 ++ '\r' :: b) cur false hc.1 hc.2.1 hc.2.2,
      ih b (cur ++ [c]) (fun x hx => h x (List.mem_cons_of_mem c hx)) hb]
    simp

/-- C8: `splitCSVLines` is the quote-aware segmentation of the input with
blank segments removed: it splits exactly at unquoted newline or carriage
return characters (an unquoted CRLF pair is one boundary), keeps newlines
inside an open quoted region within the current line, drops every
produced line that is empty or whitespace after trim, and includes the
final accumulated line when it is non-blank even without a trailing
terminator. -/
theorem c8_split_csv_lines :
    (∀ data, splitCSVLines data =
        (segs data false []).filter (fun L => !(trimJS L).isEmpty)) ∧
    (∀ a b cur, (∀ c ∈ a, c ≠ '\n' ∧ c ≠ '\r' ∧ c ≠ '"') →
        segs (a ++ '\n' :: b) false cur = (cur ++ a) :: segs b false []) ∧
    (∀ a b cur, (∀ c ∈ a, c ≠ '\n' ∧ c ≠ '\r' ∧ c ≠ '"') →
        segs (a ++ '\r' :: '\n' :: b) false cur =
          (cur ++ a) :: segs b false []) ∧
    (∀ a b cur, (∀ c ∈ a, c ≠ '\n' ∧ c ≠ '\r' ∧ c ≠ '"') →
        b.head? ≠ some '\n' →
        segs (a ++ '\r' :: b) false cur = (cur ++ a) :: segs b false []) ∧
    (∀ a cur, (∀ c ∈ a, c ≠ '\n' ∧ c ≠ '\r' ∧ c ≠ '"') →
        segs a false cur = [cur ++ a]) ∧
    splitCSVLines "\"x\ny\",z".toList = ["\"x\ny\",z".toList] ∧
    splitCSVLines "a\r\nb\r\rc\n  \n".toList =
      ["a".toList, "b".toList, "c".toList] :=
  ⟨fun data => splitGo_eq_filter_segs data false [],
   fun a b cur h => segs_clean_append_nl a b cur h,
   fun a b cur h => segs_clean_append_crlf a b cur h,
   fun a b cur h hb => segs_clean_append_cr a b cur h hb,
   fun a cur h => segs_clean_single a cur h,
   by decide, by decide⟩

theorem c8_split_csv_lines_witness :
    segs ("ab".toList ++ '\n' :: "c".toList) false [] =
      ([] ++ "ab".toList) :: segs "c".toList false [] ∧
    segs "xy".toList false [] = [[] ++ "xy".toList] :=
  ⟨c8_split_csv_lines.2.1 "ab".toList "c".toList [] (by decide),
   c8_split_csv_lines.2.2.2.2.1 "xy".toList [] (by decide)⟩


/-! ### Lines and fields as pure splits -/

/-- Split a list at every occurrence of the delimiter: the raw field texts
of one line (k+1 pieces for k delimiters). -/
def splitD (d : Char) : List Char → List (List Char)
  | [] => [[]]
  | c :: t =>
      if c = d then [] :: splitD d t
      else
        match splitD d t with
        | p :: ps => (c :: p) :: ps
        | [] => [[c]]

/-- Split a list at every newline (plain, not quote-aware; adequate for
quote-free text). -/
def splitNl : List Char → List (List Char)
  | [] => [[]]
  | c :: t =>
      if c = '\n' then [] :: splitNl t
      else
        match splitNl t with
        | p :: ps => (c :: p) :: ps
        | [] => [[c]]

/-- The raw pieces of a line prefixed into an existing field buffer. -/
def fieldsAcc (cfg : Config) (f0 L : List Char) : List (List Char) :=
  match splitD cfg.delimiter L with
  | p :: ps => (f0 ++ p) :: ps
  | [] => [f0]

/-- The finalized fields of one quote-free line. -/
def lineFields (cfg : Config) (L : List Char) : List (List Char) :=
  (splitD cfg.delimiter L).map (finalizeField false cfg.trim)

/-- A fully blank (empty or all-whitespace) line. -/
def isBlankLine (L : List Char) : Bool := (trimJS L).isEmpty

/-- A line whose first field, trimmed, begins with the comment
character. -/
def isCommentLine (cfg : Config) (L : List Char) : Bool :=
  (trimJS (L.takeWhile (fun x => x != cfg.delimiter))).head? ==
    some cfg.commentChar

/-- A quote-free line that survives row finalization. -/
def keepLine (cfg : Config) (L : List Char) : Bool :=
  !isBlankLine L && !isCommentLine cfg L

/-- Modelled from the spec: the logical lines of the normalized input, as
perceived by the quote-aware scanner (glossary entry "Logical line"); a
trailing empty segment produced by a final newline is not counted as a
line. -/
def specLogicalLines (data : List Char) : List (List Char) :=
  let ss := segs (normalizeInput data) false []
  if ss.getLast? = some [] then ss.dropLast else ss

/-- Modelled from the spec: a comment line is a line whose first character
at line start is the comment character (glossary entry "Comment line"). -/
def specCommentLine (cfg : Config) (L : List Char) : Bool :=
  L.head? == some cfg.commentChar

theorem splitD_ne_nil (d : Char) (L : List Char) : splitD d L ≠ [] := by
  cases L with
  | nil => simp [splitD]
  | cons c t =>
    simp only [splitD]
    split
    · simp
    · split <;> simp

theorem splitNl_ne_nil (L : List Char) : splitNl L ≠ [] := by
  cases L with
  | nil => simp [splitNl]
  | cons c t =>
    simp only [splitNl]
    split
    · simp
    · split <;> simp

theorem splitD_single (d : Char) (L : List Char) (h : d ∉ L) :
    splitD d L = [L] := by
  induction L with
  | nil => rfl
  | cons c t ih =>
    have hc : c ≠ d := fun hh => h (hh ▸ List.mem_cons_self c t)
    have ht : d ∉ t := fun hm => h (List.mem_cons_of_mem c hm)
    simp only [splitD, if_neg hc, ih ht]

theorem splitNl_single (L : List Char) (h : '\n' ∉ L) : splitNl L = [L] := by
  induction L with
  | nil => rfl
  | cons c t ih =>
    have hc : c ≠ '\n' := fun hh => h (hh ▸ List.mem_cons_self c t)
    have ht : '\n' ∉ t := fun hm => h (List.mem_cons_of_mem c hm)
    simp only [splitNl, if_neg hc, ih ht]

theorem splitNl_append (A N : List Char) (h : '\n' ∉ A) :
    splitNl (A ++ '\n' :: N) = A :: splitNl N := by
  induction A with
  | nil => simp [splitNl]
  | cons c t ih =>
    have hc : c ≠ '\n' := fun hh => h (hh ▸ List.mem_cons_self c t)
    have ht : '\n' ∉ t := fun hm => h (List.mem_cons_of_mem c hm)
    rw [List.cons_append]
    simp only [splitNl, if_neg hc, ih ht]

theorem splitD_two_le (d : Char) (L : List Char) (h : d ∈ L) :
    2 ≤ (splitD d L).length := by
  induction L with
  | nil => exact absurd h (List.not_mem_nil d)
  | cons c t ih =>
    by_cases hc : c = d
    · simp only [splitD, if_pos hc, List.length_cons]
      have := splitD_ne_nil d t
      cases he : splitD d t with
      | nil => exact absurd he this
      | cons p ps => simp
    · have ht : d ∈ t := by
        rcases List.mem_cons.mp h with h1 | h2
        · exact absurd h1.symm hc
        · exact h2
      simp only [splitD, if_neg hc]
      cases he : splitD d t with
      | nil => exact absurd he (splitD_ne_nil d t)
      | cons p ps =>
        have := ih ht
        rw [he] at this
        simpa using this

theorem splitD_head? (d : Char) (L : List Char) :
    (splitD d L).head? = some (L.takeWhile (fun x => x != d)) := by
  induction L with
  | nil => rfl
  | cons c t ih =>
    by_cases hc : c = d
    · subst hc
      simp only [splitD]
      rw [if_pos trivial, List.head?_cons,
        List.takeWhile_cons_of_neg (by simp)]
    · rw [List.takeWhile_cons_of_pos (by simp [hc])]
      simp only [splitD, if_neg hc]
      cases he : splitD d t with
      | nil => exact absurd he (splitD_ne_nil d t)
      | cons p ps =>
        rw [he] at ih
        simp only [List.head?_cons, Option.some.injEq] at ih ⊢
        rw [ih]

theorem mem_splitD_mem (d : Char) (L : List Char) :
    ∀ p ∈ splitD d L, ∀ c ∈ p, c ∈ L := by
  induction L with
  | nil =>
    intro p hp c hc
    simp only [splitD, List.mem_singleton] at hp
    rw [hp] at hc
    exact absurd hc (List.not_mem_nil c)
  | cons a t ih =>
    intro p hp c hc
    by_cases ha : a = d
    · simp only [splitD, if_pos ha, List.mem_cons] at hp
      rcases hp with h1 | h2
      · rw [h1] at hc
        exact absurd hc (List.not_mem_nil c)
      · exact List.mem_cons_of_mem a (ih p h2 c hc)
    · simp only [splitD, if_neg ha] at hp
      cases he : splitD d t with
      | nil => exact absurd he (splitD_ne_nil d t)
      | cons q qs =>
        rw [he] at hp
        simp only [List.mem_cons] at hp
        rcases hp with h1 | h2
        · rw [h1] at hc
          rcases List.mem_cons.mp hc with h3 | h4
          · exact h3 ▸ List.mem_cons_self a t
          · exact List.mem_cons_of_mem a
              (ih q (he ▸ List.mem_cons_self q qs) c h4)
        · exact List.mem_cons_of_mem a (ih p (he ▸ List.mem_cons_of_mem q h2) c hc)

theorem mem_splitNl_mem (N : List Char) :
    ∀ L ∈ splitNl N, ∀ c ∈ L, c ∈ N := by
  induction N with
  | nil =>
    intro L hL c hc
    simp only [splitNl, List.mem_singleton] at hL
    rw [hL] at hc
    exact absurd hc (List.not_mem_nil c)
  | cons a t ih =>
    intro L hL c hc
    by_cases ha : a = '\n'
    · simp only [splitNl, if_pos ha, List.mem_cons] at hL
      rcases hL with h1 | h2
      · rw [h1] at hc
        exact absurd hc (List.not_mem_nil c)
      · exact List.mem_cons_of_mem a (ih L h2 c hc)
    · simp only [splitNl, if_neg ha] at hL
      cases he : splitNl t with
      | nil => exact absurd he (splitNl_ne_nil t)
      | cons q qs =>
        rw [he] at hL
        simp only [List.mem_cons] at hL
        rcases hL with h1 | h2
        · rw [h1] at hc
          rcases List.mem_cons.mp hc with h3 | h4
          · exact h3 ▸ List.mem_cons_self a t
          · exact List.mem_cons_of_mem a
              (ih q (he ▸ List.mem_cons_self q qs) c h4)
        · exact List.mem_cons_of_mem a (ih L (he ▸ List.mem_cons_of_mem q h2) c hc)


/-! ### The within-line scan -/

/-- The effect of the `parseCSV` loop on a stretch of characters that
contains no newline, NUL or quote: delimiters finalize fields, everything
else is appended to the field buffer. -/
def scanEnd (cfg : Config) : List Char → TState → TState
  | [], s => s
  | c :: t, s =>
      if c = cfg.delimiter then
        scanEnd cfg t { pushField cfg s with lineStart := false }
      else
        scanEnd cfg t { s with field := s.field ++ [c], lineStart := false }

theorem tstate_eq (a b : TState) (h1 : a.rows = b.rows) (h2 : a.row = b.row)
    (h3 : a.field = b.field) (h4 : a.inQuotes = b.inQuotes)
    (h5 : a.lineStart = b.lineStart) : a = b := by
  cases a
  cases b
  simp_all

theorem run_scan (cfg : Config) :
    ∀ (L rest : List Char) (s : TState),
      (∀ c ∈ L, c ≠ '\n' ∧ c ≠ '\x00' ∧ c ≠ '"') →
      s.inQuotes = false →
      (s.lineStart = true → L.head? ≠ some cfg.commentChar) →
      run cfg (L ++ rest) s = run cfg rest (scanEnd cfg L s) := by
  intro L
  induction L with
  | nil => intro rest s _ _ _; rfl
  | cons c t ih =>
    intro rest s hclean hq hls
    have hc := hclean c (List.mem_cons_self c t)
    rw [List.cons_append, run_cons]
    have hnotms : ¬ (s.lineStart ∧ c = cfg.commentChar) := by
      rintro ⟨h1, h2⟩
      exact hls h1 (by rw [List.head?_cons, h2])
    have htl : ∀ x ∈ t, x ≠ '\n' ∧ x ≠ '\x00' ∧ x ≠ '"' :=
      fun x hx => hclean x (List.mem_cons_of_mem c hx)
    by_cases hd : c = cfg.delimiter
    · have hstep : step cfg c (t ++ rest) s =
          (t ++ rest, { pushField cfg s with lineStart := false }) := by
        unfold step
        rw [if_neg hnotms, if_pos ⟨by simp [hq], hd⟩]
      rw [hstep]
      have hsc : scanEnd cfg (c :: t) s =
          scanEnd cfg t { pushField cfg s with lineStart := false } := by
        simp only [scanEnd, if_pos hd]
      rw [hsc]
      exact ih rest _ htl (by simp [pushField, hq])
        (fun hf => absurd hf (by simp))
    · have hstep : step cfg c (t ++ rest) s =
          (t ++ rest, { s with field := s.field ++ [c],
                               lineStart := false }) := by
        unfold step
        rw [if_neg hnotms, if_neg (fun hx => hd hx.2),
          if_neg (fun hx => hc.1 hx.2), if_neg (fun hx => hc.2.1 hx.2),
          if_neg hc.2.2, if_neg (fun hx => hc.1 hx.1)]
      rw [hstep]
      have hsc : scanEnd cfg (c :: t) s =
          scanEnd cfg t { s with field := s.field ++ [c],
                                 lineStart := false } := by
        simp only [scanEnd, if_neg hd]
      rw [hsc]
      exact ih rest _ htl (by simp [hq]) (fun hf => absurd hf (by simp))

theorem fieldsAcc_nil (cfg : Config) (f0 : List Char) :
    fieldsAcc cfg f0 [] = [f0] := by
  simp [fieldsAcc, splitD]

theorem fieldsAcc_nil_left (cfg : Config) (t : List Char) :
    fieldsAcc cfg [] t = splitD cfg.delimiter t := by
  unfold fieldsAcc
  cases he : splitD cfg.delimiter t with
  | nil => exact absurd he (splitD_ne_nil _ _)
  | cons p ps => simp

theorem fieldsAcc_cons_delim (cfg : Config) (t f0 : List Char)
    (c : Char) (hd : c = cfg.delimiter) :
    fieldsAcc cfg f0 (c :: t) = f0 :: splitD cfg.delimiter t := by
  unfold fieldsAcc
  simp only [splitD, if_pos hd]
  simp

theorem fieldsAcc_cons_ne (cfg : Config) (t f0 : List Char) (c : Char)
    (hd : ¬ c = cfg.delimiter) :
    fieldsAcc cfg f0 (c :: t) = fieldsAcc cfg (f0 ++ [c]) t := by
  unfold fieldsAcc
  simp only [splitD, if_neg hd]
  cases he : splitD cfg.delimiter t with
  | nil => exact absurd he (splitD_ne_nil _ _)
  | cons p ps => simp

theorem fieldsAcc_ne_nil (cfg : Config) (f0 L : List Char) :
    fieldsAcc cfg f0 L ≠ [] := by
  unfold fieldsAcc
  cases he : splitD cfg.delimiter L with
  | nil => exact absurd he (splitD_ne_nil _ _)
  | cons p ps => simp

/-- Closed form of the within-line scan: the raw pieces of the line are
the delimiter-split of its text; all pieces but the last are finalized
onto the row, the last remains in the field buffer. -/
theorem scanEnd_spec (cfg : Config) :
    ∀ (L : List Char) (s : TState), s.inQuotes = false →
      scanEnd cfg L s =
        { s with
          row := s.row ++ ((fieldsAcc cfg s.field L).dropLast.map
            (finalizeField false cfg.trim)),
          field := (fieldsAcc cfg s.field L).getLastD [],
          lineStart := if L.isEmpty then s.lineStart else false } := by
  intro L
  induction L with
  | nil =>
    intro s hq
    apply tstate_eq <;> simp [scanEnd, fieldsAcc_nil]
  | cons c t ih =>
    intro s hq
    by_cases hd : c = cfg.delimiter
    · have hsc : scanEnd cfg (c :: t) s =
          scanEnd cfg t { s with
            row := s.row ++ [finalizeField false cfg.trim s.field],
            field := [], lineStart := false } := by
        simp only [scanEnd, if_pos hd]
        congr 1
        apply tstate_eq <;> simp [pushField, hq]
      rw [hsc, ih _ (by simp [hq])]
      rcases he : splitD cfg.delimiter t with _ | ⟨p, ps⟩
      · exact absurd he (splitD_ne_nil _ _)
      apply tstate_eq <;>
        simp [fieldsAcc_cons_delim cfg t s.field c hd, fieldsAcc_nil_left, he]
    · have hsc : scanEnd cfg (c :: t) s =
          scanEnd cfg t { s with field := s.field ++ [c],
                                 lineStart := false } := by
        simp only [scanEnd, if_neg hd]
      rw [hsc, ih _ (by simp [hq])]
      apply tstate_eq <;>
        simp [fieldsAcc_cons_ne cfg t s.field c hd]


/-! ### Row finalization of a quote-free line -/

theorem blank_or (L : List Char) :
    (L.isEmpty || (trimJS L).isEmpty) = (trimJS L).isEmpty := by
  cases L with
  | nil => rfl
  | cons a t => simp

theorem trimJS_finalize (tr : Bool) (f : List Char) (h : '"' ∉ f) :
    trimJS (finalizeField false tr f) = trimJS f := by
  rw [finalizeField_no_quote tr f h]
  cases tr with
  | false => simp
  | true => simp [trimJS_idem]

theorem finalize_isEmpty_or (tr : Bool) (f : List Char) (h : '"' ∉ f) :
    ((finalizeField false tr f).isEmpty ||
      (trimJS (finalizeField false tr f)).isEmpty) = (trimJS f).isEmpty := by
  rw [finalizeField_no_quote tr f h]
  cases tr with
  | false => simp [blank_or]
  | true => simp [trimJS_idem, blank_or]

theorem isBlankRow_lineFields (cfg : Config) (L : List Char) (hq : '"' ∉ L)
    (hdw : isJSWS cfg.delimiter = false) :
    isBlankRow (lineFields cfg L) = isBlankLine L := by
  by_cases hdm : cfg.delimiter ∈ L
  · have h2 := splitD_two_le cfg.delimiter L hdm
    rcases he : splitD cfg.delimiter L with _ | ⟨p, ps⟩
    · exact absurd he (splitD_ne_nil _ _)
    rcases hps : ps with _ | ⟨q, qs⟩
    · rw [he, hps] at h2
      simp at h2
    have hrowf : lineFields cfg L =
        finalizeField false cfg.trim p :: finalizeField false cfg.trim q ::
          qs.map (finalizeField false cfg.trim) := by
      rw [lineFields, he, hps]
      simp
    rw [hrowf]
    have hbl : isBlankLine L = false := by
      unfold isBlankLine
      cases htr : trimJS L with
      | nil =>
        exfalso
        have hws := (trimJS_eq_nil_iff L).mp htr cfg.delimiter hdm
        rw [hdw] at hws
        exact Bool.false_ne_true hws
      | cons a u => simp
    rw [hbl]
    rfl
  · have hone : splitD cfg.delimiter L = [L] := splitD_single _ _ hdm
    have hrowf : lineFields cfg L = [finalizeField false cfg.trim L] := by
      rw [lineFields, hone]
      simp
    rw [hrowf]
    show ((finalizeField false cfg.trim L).isEmpty ||
        (trimJS (finalizeField false cfg.trim L)).isEmpty) = isBlankLine L
    rw [finalize_isEmpty_or cfg.trim L hq]
    rfl

theorem isCommentRow_lineFields (cfg : Config) (L : List Char)
    (hq : '"' ∉ L) :
    isCommentRow cfg.commentChar (lineFields cfg L) = isCommentLine cfg L := by
  rcases he : splitD cfg.delimiter L with _ | ⟨p, ps⟩
  · exact absurd he (splitD_ne_nil _ _)
  have hp : p = L.takeWhile (fun x => x != cfg.delimiter) := by
    have h := splitD_head? cfg.delimiter L
    rw [he] at h
    simpa using h
  have hrowf : lineFields cfg L =
      finalizeField false cfg.trim p ::
        ps.map (finalizeField false cfg.trim) := by
    rw [lineFields, he]
    simp
  rw [hrowf]
  show ((trimJS (finalizeField false cfg.trim p)).head? ==
      some cfg.commentChar) = _
  have hqp : '"' ∉ p := fun hm => hq
    (mem_splitD_mem cfg.delimiter L p (he ▸ List.mem_cons_self p ps) '"' hm)
  rw [trimJS_finalize cfg.trim p hqp, hp]
  rfl

theorem pushRow_lineFields (cfg : Config) (L : List Char) (s : TState)
    (hrow : s.row = lineFields cfg L) (hq : '"' ∉ L)
    (hdw : isJSWS cfg.delimiter = false) :
    pushRow cfg.commentChar s =
      { s with
        rows := s.rows ++ (if keepLine cfg L then [lineFields cfg L] else []),
        row := [] } := by
  have hbr : isBlankRow s.row = isBlankLine L := by
    rw [hrow]
    exact isBlankRow_lineFields cfg L hq hdw
  have hcr : isCommentRow cfg.commentChar s.row = isCommentLine cfg L := by
    rw [hrow]
    exact isCommentRow_lineFields cfg L hq
  unfold pushRow
  cases hb : isBlankLine L with
  | true =>
    rw [if_pos (by rw [hbr]; exact hb)]
    have hk : keepLine cfg L = false := by simp [keepLine, hb]
    rw [hk]
    apply tstate_eq <;> simp
  | false =>
    cases hc : isCommentLine cfg L with
    | true =>
      rw [if_neg (by rw [hbr, hb]; simp), if_pos (by rw [hcr]; exact hc)]
      have hk : keepLine cfg L = false := by simp [keepLine, hc]
      rw [hk]
      apply tstate_eq <;> simp
    | false =>
      rw [if_neg (by rw [hbr, hb]; simp), if_neg (by rw [hcr, hc]; simp)]
      have hk : keepLine cfg L = true := by simp [keepLine, hb, hc]
      rw [hk, hrow]
      apply tstate_eq <;> simp

theorem dropLast_getLastD (X : List (List Char)) (hX : X ≠ []) :
    X.dropLast ++ [X.getLastD []] = X := by
  rw [List.getLastD_eq_getLast?, List.getLast?_eq_getLast_of_ne_nil hX]
  exact List.dropLast_concat_getLast hX

theorem map_dropLast_getLastD (f : List Char → List Char)
    (X : List (List Char)) (hX : X ≠ []) :
    X.dropLast.map f ++ [f (X.getLastD [])] = X.map f := by
  conv_rhs => rw [← dropLast_getLastD X hX]
  rw [List.map_append]
  rfl

/-- Finalizing the buffered line (`pushField` then `pushRow`) after the
within-line scan appends exactly the kept row of the line. -/
theorem line_push (cfg : Config) (L : List Char) (s : TState)
    (hrow : s.row = []) (hfield : s.field = []) (hq2 : s.inQuotes = false)
    (hq : '"' ∉ L) (hdw : isJSWS cfg.delimiter = false) :
    pushRow cfg.commentChar (pushField cfg (scanEnd cfg L s)) =
      { s with
        rows := s.rows ++ (if keepLine cfg L then [lineFields cfg L] else []),
        row := [], field := [],
        lineStart := if L.isEmpty then s.lineStart else false } := by
  rw [scanEnd_spec cfg L s hq2]
  have hpf : pushField cfg { s with
        row := s.row ++ ((fieldsAcc cfg s.field L).dropLast.map
          (finalizeField false cfg.trim)),
        field := (fieldsAcc cfg s.field L).getLastD [],
        lineStart := if L.isEmpty then s.lineStart else false } =
      { s with
        row := lineFields cfg L,
        field := [],
        lineStart := if L.isEmpty then s.lineStart else false } := by
    apply tstate_eq
    · simp [pushField]
    · simp only [pushField, hrow, hfield, hq2, fieldsAcc_nil_left,
        List.nil_append]
      rw [map_dropLast_getLastD _ _ (splitD_ne_nil cfg.delimiter L)]
      rfl
    · simp [pushField]
    · simp [pushField]
    · simp [pushField]
  rw [hpf, pushRow_lineFields cfg L _ (by simp) hq hdw]

/-- Processing one full quote-free line followed by a newline: the state
machine consumes the line, appends its kept row, and returns to a fresh
line-start state. -/
theorem run_line (cfg : Config) (L rest : List Char) (s : TState)
    (hclean : ∀ c ∈ L, c ≠ '\n' ∧ c ≠ '\x00' ∧ c ≠ '"')
    (hrow : s.row = []) (hfield : s.field = []) (hq2 : s.inQuotes = false)
    (hls : s.lineStart = true)
    (hccn : cfg.commentChar ≠ '\n') (hdn : cfg.delimiter ≠ '\n')
    (hcd : cfg.commentChar ≠ cfg.delimiter)
    (hwc : isJSWS cfg.commentChar = false)
    (hdw : isJSWS cfg.delimiter = false) :
    run cfg (L ++ '\n' :: rest) s =
      run cfg rest { s with
        rows := s.rows ++
          (if keepLine cfg L then [lineFields cfg L] else []) } := by
  by_cases hhead : L.head? = some cfg.commentChar
  · obtain ⟨t, rfl⟩ : ∃ t, L = cfg.commentChar :: t := by
      cases L with
      | nil => simp at hhead
      | cons a t =>
        simp only [List.head?_cons, Option.some.injEq] at hhead
        exact ⟨t, by rw [hhead]⟩
    rw [List.cons_append, run_cons]
    have hdw2 : (cfg.commentChar :: (t ++ '\n' :: rest)).dropWhile
        (fun x => x != '\n') = '\n' :: rest := by
      rw [show cfg.commentChar :: (t ++ '\n' :: rest) =
            (cfg.commentChar :: t) ++ '\n' :: rest from rfl,
        List.dropWhile_append_of_pos (by
          intro a ha
          rcases List.mem_cons.mp ha with h1 | h2
          · rw [h1]
            simp [hccn]
          · have h3 := (hclean a (List.mem_cons_of_mem _ h2)).1
            simp [h3]),
        List.dropWhile_cons_of_neg (by simp)]
    have hstep : step cfg cfg.commentChar (t ++ '\n' :: rest) s =
        (rest, s) := by
      unfold step
      rw [if_pos ⟨hls, rfl⟩, hdw2]
      rfl
    rw [hstep]
    have hcomment : isCommentLine cfg (cfg.commentChar :: t) = true := by
      unfold isCommentLine
      rw [List.takeWhile_cons_of_pos (by simp [hcd]),
        trimJS_cons_of_not_ws cfg.commentChar _ hwc]
      simp
    have hk : keepLine cfg (cfg.commentChar :: t) = false := by
      simp [keepLine, hcomment]
    rw [hk]
    congr 1
    apply tstate_eq <;> simp
  · rw [run_scan cfg L ('\n' :: rest) s hclean hq2 (fun _ => hhead),
      run_cons]
    have hqE : (scanEnd cfg L s).inQuotes = false := by
      rw [scanEnd_spec cfg L s hq2]
      simpa using hq2
    have hstep : step cfg '\n' rest (scanEnd cfg L s) =
        (rest, { pushRow cfg.commentChar
          (pushField cfg (scanEnd cfg L s)) with lineStart := true }) := by
      unfold step
      rw [if_neg (fun hx => hccn hx.2.symm),
        if_neg (fun hx => hdn hx.2.symm)]
      rw [if_pos ⟨by simp [hqE], rfl⟩]
    rw [hstep]
    have hq' : '"' ∉ L := fun hm => (hclean '"' hm).2.2 rfl
    rw [line_push cfg L s hrow hfield hq2 hq' hdw]
    congr 1
    apply tstate_eq <;> simp [hls, hrow, hfield]


/-! ### Decomposing the normalized input into lines -/

theorem split_first_nl (N : List Char) (h : '\n' ∈ N) :
    ∃ A N2, N = A ++ '\n' :: N2 ∧ '\n' ∉ A := by
  rcases hd : N.dropWhile (fun x => x != '\n') with _ | ⟨d, ds⟩
  · exfalso
    rw [List.dropWhile_eq_nil_iff] at hd
    have := hd '\n' h
    simp at this
  · have hdn : d = '\n' := by
      have h2 := List.head?_dropWhile_not (fun x => x != '\n') N
      rw [hd] at h2
      simpa using h2
    refine ⟨N.takeWhile (fun x => x != '\n'), ds, ?_, ?_⟩
    · conv_lhs => rw [← List.takeWhile_append_dropWhile
        (p := fun x => x != '\n') (l := N)]
      rw [hd, hdn]
    · intro hm
      have := List.mem_takeWhile_imp hm
      simp at this

theorem mem_normCR_or (l : List Char) (c : Char) (h : c ∈ normCR l) :
    c ∈ l ∨ c = '\n' := by
  induction l with
  | nil => exact absurd h (List.not_mem_nil c)
  | cons a t ih =>
    by_cases ha : a = '\r'
    · subst ha
      rw [show normCR ('\r' :: t) = '\n' :: normCR t from rfl] at h
      rcases List.mem_cons.mp h with h1 | h2
      · exact Or.inr h1
      · rcases ih h2 with h3 | h4
        · exact Or.inl (List.mem_cons_of_mem _ h3)
        · exact Or.inr h4
    · rw [normCR_cons_ne a t ha] at h
      rcases List.mem_cons.mp h with h1 | h2
      · exact Or.inl (h1 ▸ List.mem_cons_self a t)
      · rcases ih h2 with h3 | h4
        · exact Or.inl (List.mem_cons_of_mem _ h3)
        · exact Or.inr h4

theorem mem_normCRLF_or :
    ∀ (l : List Char) (c : Char), c ∈ normCRLF l → c ∈ l ∨ c = '\n' := by
  have main : ∀ (n : Nat) (l : List Char), l.length ≤ n →
      ∀ c, c ∈ normCRLF l → c ∈ l ∨ c = '\n' := by
    intro n
    induction n with
    | zero =>
      intro l hl c h
      have : l = [] := by cases l <;> simp_all
      subst this
      exact absurd h (List.not_mem_nil c)
    | succ n ih =>
      intro l hl c h
      cases l with
      | nil => exact absurd h (List.not_mem_nil c)
      | cons a t =>
        simp only [List.length_cons] at hl
        by_cases ha : a = '\r'
        · subst ha
          cases t with
          | nil =>
            rw [show normCRLF ['\r'] = ['\r'] from rfl] at h
            exact Or.inl h
          | cons b t2 =>
            simp only [List.length_cons] at hl
            by_cases hb : b = '\n'
            · subst hb
              rw [show normCRLF ('\r' :: '\n' :: t2) = '\n' :: normCRLF t2
                    from rfl] at h
              rcases List.mem_cons.mp h with h1 | h2
              · exact Or.inr h1
              · rcases ih t2 (by omega) c h2 with h3 | h4
                · exact Or.inl
                    (List.mem_cons_of_mem _ (List.mem_cons_of_mem _ h3))
                · exact Or.inr h4
            · rw [normCRLF_cr_cons (b :: t2) (by simp [hb])] at h
              rcases List.mem_cons.mp h with h1 | h2
              · exact Or.inl (h1 ▸ List.mem_cons_self _ _)
              · rcases ih (b :: t2) (by simp; omega) c h2 with h3 | h4
                · exact Or.inl (List.mem_cons_of_mem _ h3)
                · exact Or.inr h4
        · rw [normCRLF_cons_ne a t ha] at h
          rcases List.mem_cons.mp h with h1 | h2
          · exact Or.inl (h1 ▸ List.mem_cons_self a t)
          · rcases ih t (by omega) c h2 with h3 | h4
            · exact Or.inl (List.mem_cons_of_mem _ h3)
            · exact Or.inr h4
  intro l
  exact main l.length l le_rfl

theorem not_mem_normalizeInput (data : List Char) (c : Char)
    (hc : c ≠ '\n') (h : c ∉ data) : c ∉ normalizeInput data := by
  intro hm
  unfold normalizeInput at hm
  rcases mem_normCR_or _ c hm with h1 | h2
  · rcases mem_normCRLF_or _ c h1 with h3 | h4
    · exact h (mem_stripBOM data c h3)
    · exact hc h4
  · exact hc h2

theorem keepLine_nil (cfg : Config) : keepLine cfg [] = false := by
  simp [keepLine, isBlankLine, trimJS_nil]

theorem keepLine_comment_head (cfg : Config) (t : List Char)
    (hcd : cfg.commentChar ≠ cfg.delimiter)
    (hwc : isJSWS cfg.commentChar = false) :
    keepLine cfg (cfg.commentChar :: t) = false := by
  have hcomment : isCommentLine cfg (cfg.commentChar :: t) = true := by
    unfold isCommentLine
    rw [List.takeWhile_cons_of_pos (by simp [hcd]),
      trimJS_cons_of_not_ws cfg.commentChar _ hwc]
    simp
  simp [keepLine, hcomment]

theorem length_filter_partition {α : Type _} (l : List α) (p q : α → Bool)
    (h : ∀ a ∈ l, ¬(p a = true ∧ q a = true)) :
    (l.filter (fun a => !p a && !q a)).length + (l.filter p).length +
      (l.filter q).length = l.length := by
  induction l with
  | nil => rfl
  | cons a t ih =>
    have ht := ih (fun x hx => h x (List.mem_cons_of_mem a hx))
    have ha := h a (List.mem_cons_self a t)
    rw [List.filter_cons, List.filter_cons, List.filter_cons]
    cases hp : p a with
    | true =>
      have hq : q a = false := by
        cases hq2 : q a with
        | true => exact absurd ⟨hp, hq2⟩ ha
        | false => rfl
      simp [hp, hq]
      omega
    | false =>
      cases hq : q a with
      | true =>
        simp [hp, hq]
        omega
      | false =>
        simp [hp, hq]
        omega


/-- The rows accumulated by the loop plus the end-of-input flush on a
quote-free, NUL-free input: one kept row per kept line. -/
theorem run_flush_rows (cfg : Config)
    (hccn : cfg.commentChar ≠ '\n') (hdn : cfg.delimiter ≠ '\n')
    (hcd : cfg.commentChar ≠ cfg.delimiter)
    (hwc : isJSWS cfg.commentChar = false)
    (hdw : isJSWS cfg.delimiter = false) :
    ∀ (n : Nat) (N : List Char), N.length ≤ n → '"' ∉ N → '\x00' ∉ N →
      ∀ s : TState, s.row = [] → s.field = [] → s.inQuotes = false →
        s.lineStart = true →
        (flush cfg (run cfg N s)).rows =
          s.rows ++ ((splitNl N).filter (keepLine cfg)).map
            (lineFields cfg) := by
  intro n
  induction n with
  | zero =>
    intro N hN hq hnul s hrow hfield hq2 hls
    have hN0 : N = [] := by cases N <;> simp_all
    subst hN0
    rw [run_nil]
    unfold flush
    rw [if_neg (by simp [hrow, hfield])]
    simp [splitNl, List.filter_cons, keepLine_nil]
  | succ n ih =>
    intro N hN hq hnul s hrow hfield hq2 hls
    by_cases hnl : '\n' ∈ N
    · obtain ⟨A, N2, hNe, hA⟩ := split_first_nl N hnl
      subst hNe
      have hcleanA : ∀ c ∈ A, c ≠ '\n' ∧ c ≠ '\x00' ∧ c ≠ '"' := by
        intro c hc
        refine ⟨fun hh => hA (hh ▸ hc), fun hh => ?_, fun hh => ?_⟩
        · subst hh
          exact hnul (List.mem_append_left _ hc)
        · subst hh
          exact hq (List.mem_append_left _ hc)
      rw [run_line cfg A N2 s hcleanA hrow hfield hq2 hls hccn hdn hcd hwc
        hdw]
      have hlen : N2.length ≤ n := by
        rw [List.length_append, List.length_cons] at hN
        omega
      rw [ih N2 hlen
        (fun hm => hq (List.mem_append_right _ (List.mem_cons_of_mem _ hm)))
        (fun hm => hnul
          (List.mem_append_right _ (List.mem_cons_of_mem _ hm)))
        _ (by simp [hrow]) (by simp [hfield]) (by simp [hq2])
        (by simp [hls])]
      rw [splitNl_append A N2 hA]
      by_cases hk : keepLine cfg A = true
      · simp [List.filter_cons, hk]
      · simp [List.filter_cons, hk]
    · cases N with
      | nil =>
        rw [run_nil]
        unfold flush
        rw [if_neg (by simp [hrow, hfield])]
        simp [splitNl, List.filter_cons, keepLine_nil]
      | cons a t =>
        have hcleanN : ∀ c ∈ a :: t, c ≠ '\n' ∧ c ≠ '\x00' ∧ c ≠ '"' := by
          intro c hc
          refine ⟨fun hh => hnl (hh ▸ hc), fun hh => hnul (hh ▸ hc),
            fun hh => hq (hh ▸ hc)⟩
        by_cases hhead : (a :: t).head? = some cfg.commentChar
        · simp only [List.head?_cons, Option.some.injEq] at hhead
          subst hhead
          rw [run_cons]
          have hdwall : (cfg.commentChar :: t).dropWhile
              (fun x => x != '\n') = [] := by
            rw [List.dropWhile_eq_nil_iff]
            intro x hx
            have := (hcleanN x hx).1
            simpa using this
          have hstep : step cfg cfg.commentChar t s = ([], s) := by
            unfold step
            rw [if_pos ⟨hls, rfl⟩, hdwall]
            rfl
          rw [hstep, run_nil]
          unfold flush
          rw [if_neg (by simp [hrow, hfield])]
          rw [splitNl_single _ hnl]
          simp [List.filter_cons, keepLine_comment_head cfg t hcd hwc]
        · have hrs := run_scan cfg (a :: t) [] s hcleanN hq2
            (fun _ => hhead)
          rw [List.append_nil] at hrs
          rw [hrs, run_nil]
          have hqN : '"' ∉ a :: t := fun hm => (hcleanN '"' hm).2.2 rfl
          unfold flush
          rw [if_pos ?hfire]
          case hfire =>
            rw [scanEnd_spec cfg (a :: t) s hq2]
            simp only [hrow, hfield, fieldsAcc_nil_left, List.nil_append]
            by_cases hdm : cfg.delimiter ∈ a :: t
            · right
              have h2 := splitD_two_le cfg.delimiter (a :: t) hdm
              rw [List.length_map, List.length_dropLast]
              omega
            · left
              rw [splitD_single _ _ hdm]
              simp
          rw [line_push cfg (a :: t) s hrow hfield hq2 hqN hdw]
          rw [splitNl_single _ hnl]
          by_cases hk : keepLine cfg (a :: t) = true
          · simp [List.filter_cons, hk]
          · simp [List.filter_cons, hk]


theorem dropTrailingBlank_eq_self (rows : List (List (List Char)))
    (h : ∀ r ∈ rows, r ≠ [[]]) : dropTrailingBlank rows = rows := by
  unfold dropTrailingBlank
  rcases hrev : rows.reverse with _ | ⟨a, tl⟩
  · simp [List.reverse_eq_nil_iff.mp hrev]
  · have ha : a ∈ rows := by
      rw [← List.mem_reverse, hrev]
      exact List.mem_cons_self a tl
    rw [List.dropWhile_cons_of_neg (by simp [h a ha]), ← hrev,
      List.reverse_reverse]

/-- On quote-free, NUL-free input, the tokenizer emits exactly the kept
lines of the normalized input, each split at delimiters and finalized. -/
theorem tokenize_lines (cfg : Config) (data : List Char)
    (hccn : cfg.commentChar ≠ '\n') (hdn : cfg.delimiter ≠ '\n')
    (hcd : cfg.commentChar ≠ cfg.delimiter)
    (hwc : isJSWS cfg.commentChar = false)
    (hdw : isJSWS cfg.delimiter = false)
    (hq : '"' ∉ data) (hnul : '\x00' ∉ data) :
    tokenize cfg data =
      ((splitNl (normalizeInput data)).filter (keepLine cfg)).map
        (lineFields cfg) := by
  have hqN : '"' ∉ normalizeInput data :=
    not_mem_normalizeInput data '"' (by decide) hq
  have hnulN : '\x00' ∉ normalizeInput data :=
    not_mem_normalizeInput data '\x00' (by decide) hnul
  simp only [tokenize]
  rw [show run cfg (normalizeInput data) initState =
        loopF cfg (normalizeInput data).length (normalizeInput data)
          initState from rfl] at *
  rw [show loopF cfg (normalizeInput data).length (normalizeInput data)
        initState = run cfg (normalizeInput data) initState from rfl]
  rw [run_flush_rows cfg hccn hdn hcd hwc hdw
    (normalizeInput data).length (normalizeInput data) le_rfl hqN hnulN
    initState rfl rfl rfl rfl]
  rw [show initState.rows = [] from rfl, List.nil_append]
  apply dropTrailingBlank_eq_self
  intro r hr
  rw [List.mem_map] at hr
  obtain ⟨L, hL, hLr⟩ := hr
  rw [List.mem_filter] at hL
  have hqL : '"' ∉ L :=
    fun hm => hqN (mem_splitNl_mem _ L hL.1 '"' hm)
  intro hre
  have hbr := isBlankRow_lineFields cfg L hqL hdw
  rw [hLr, hre] at hbr
  have hbl : isBlankLine L = true := by
    rw [← hbr]
    rfl
  have hk := hL.2
  rw [keepLine, hbl] at hk
  simp at hk

/-- C4 (amended): for inputs free of double quotes and NUL characters,
when the delimiter and comment characters are non-whitespace, distinct
from each other and from newline, the number of rows emitted equals the
number of lines of the normalized input minus the number of fully-blank
lines and the number of comment lines, where a comment line is one whose
first field, trimmed, begins with the comment character (line-start
comments are a special case of this).  Stated additively to avoid
truncated subtraction. -/
theorem c4_row_count (cfg : Config) (data : List Char)
    (hccn : cfg.commentChar ≠ '\n') (hdn : cfg.delimiter ≠ '\n')
    (hcd : cfg.commentChar ≠ cfg.delimiter)
    (hwc : isJSWS cfg.commentChar = false)
    (hdw : isJSWS cfg.delimiter = false)
    (hq : '"' ∉ data) (hnul : '\x00' ∉ data) :
    (tokenize cfg data).length +
      ((splitNl (normalizeInput data)).filter isBlankLine).length +
      ((splitNl (normalizeInput data)).filter (isCommentLine cfg)).length =
      (splitNl (normalizeInput data)).length := by
  rw [tokenize_lines cfg data hccn hdn hcd hwc hdw hq hnul,
    List.length_map]
  have hdisj : ∀ L ∈ splitNl (normalizeInput data),
      ¬(isBlankLine L = true ∧ isCommentLine cfg L = true) := by
    rintro L _ ⟨hb, hc⟩
    have htr : trimJS L = [] := by
      rw [isBlankLine] at hb
      cases htr2 : trimJS L with
      | nil => rfl
      | cons x u =>
        rw [htr2] at hb
        simp at hb
    have hws : ∀ c ∈ L, isJSWS c := (trimJS_eq_nil_iff L).mp htr
    rw [isCommentLine] at hc
    have hc2 : (trimJS (L.takeWhile
        (fun x => x != cfg.delimiter))).head? = some cfg.commentChar := by
      simpa using hc
    have hccmem : cfg.commentChar ∈
        trimJS (L.takeWhile (fun x => x != cfg.delimiter)) := head?_mem hc2
    have hccL : cfg.commentChar ∈ L :=
      (List.takeWhile_prefix _).subset (trimJS_subset _ _ hccmem)
    have hwscc := hws _ hccL
    have hnws := head?_trimJS_not_ws _ _ hc2
    rw [hnws] at hwscc
    exact Bool.false_ne_true hwscc
  have hpart := length_filter_partition (splitNl (normalizeInput data))
    isBlankLine (isCommentLine cfg) hdisj
  rw [← hpart]
  rfl

theorem c4_row_count_witness :
    (tokenize defaultCfg "a,b\n\nc".toList).length +
      ((splitNl (normalizeInput "a,b\n\nc".toList)).filter
        isBlankLine).length +
      ((splitNl (normalizeInput "a,b\n\nc".toList)).filter
        (isCommentLine defaultCfg)).length =
      (splitNl (normalizeInput "a,b\n\nc".toList)).length :=
  c4_row_count defaultCfg "a,b\n\nc".toList (by decide) (by decide)
    (by decide) (by decide) (by decide) (by decide) (by decide)

/-- C4 (counterexample): under the specification's own notions — logical
lines of the normalized input per the quote-aware scanner, comment lines
identified at line start, fully-blank lines — the row count does not equal
lines minus comment lines minus blank lines: a NUL splits one line into
two rows, a whitespace-then-comment line and a quoted comment-leading
field each suppress a row of a non-comment non-blank line. -/
theorem c4_counterexample :
    ((tokenize defaultCfg "a\x00b".toList).length ≠
      (specLogicalLines "a\x00b".toList).length
        - ((specLogicalLines "a\x00b".toList).filter isBlankLine).length
        - ((specLogicalLines "a\x00b".toList).filter
            (specCommentLine defaultCfg)).length) ∧
    ((tokenize defaultCfg " #x".toList).length ≠
      (specLogicalLines " #x".toList).length
        - ((specLogicalLines " #x".toList).filter isBlankLine).length
        - ((specLogicalLines " #x".toList).filter
            (specCommentLine defaultCfg)).length) ∧
    ((tokenize defaultCfg "\"#y\"".toList).length ≠
      (specLogicalLines "\"#y\"".toList).length
        - ((specLogicalLines "\"#y\"".toList).filter isBlankLine).length
        - ((specLogicalLines "\"#y\"".toList).filter
            (specCommentLine defaultCfg)).length) := by
  refine ⟨?_, ?_, ?_⟩ <;> decide


/-- C3 (counterexample): the string consisting of the single character `#`
contains no delimiter, newline or quote and survives trimming unchanged,
yet tokenizing it produces zero rows (the comment check fires), not one
row holding the field itself. -/
theorem c3_counterexample :
    defaultCfg.delimiter ∉ ['#'] ∧ '\n' ∉ ['#'] ∧ '"' ∉ ['#'] ∧
    trimJS ['#'] = ['#'] ∧ tokenize defaultCfg ['#'] = [] ∧
    tokenize defaultCfg ['#'] ≠ [[['#']]] := by
  refine ⟨?_, ?_, ?_, ?_, ?_, ?_⟩ <;> decide

/-- C3 (amended): round-trip for a single value.  For every string `v`
that contains no delimiter, no newline or carriage return, no quote and
no NUL, whose first character is neither the comment character nor a BOM,
that is not entirely whitespace, and whose trimmed form does not begin
with the comment character, tokenizing the input `v` yields exactly one
row with exactly one field, equal to `v` after the trim rule. -/
theorem c3_round_trip (cfg : Config) (v : List Char)
    (h1 : cfg.delimiter ∉ v) (h2 : '\n' ∉ v) (h3 : '\r' ∉ v)
    (h4 : '"' ∉ v) (h5 : '\x00' ∉ v)
    (h6 : v.head? ≠ some cfg.commentChar) (h7 : v.head? ≠ some '\uFEFF')
    (h8 : trimJS v ≠ []) (h9 : (trimJS v).head? ≠ some cfg.commentChar) :
    tokenize cfg v = [[if cfg.trim then trimJS v else v]] := by
  have hv0 : v ≠ [] := fun hh => h8 (by rw [hh, trimJS_nil])
  have hvE : v.isEmpty = false := by
    cases v with
    | nil => exact absurd rfl hv0
    | cons a t => rfl
  have htrE : (trimJS v).isEmpty = false := by
    cases htr : trimJS v with
    | nil => exact absurd htr h8
    | cons a t => rfl
  have hnorm : normalizeInput v = v := by
    unfold normalizeInput
    have hsb : stripBOM v = v := by
      cases v with
      | nil => rfl
      | cons a t =>
        simp only [stripBOM]
        rw [if_neg (fun hh => h7 (by rw [List.head?_cons, hh]))]
    rw [hsb, normCRLF_eq_self v h3, normCR_eq_self v h3]
  simp only [tokenize]
  rw [hnorm]
  have hclean : ∀ c ∈ v, c ≠ '\n' ∧ c ≠ '\x00' ∧ c ≠ '"' :=
    fun c hc => ⟨fun hh => h2 (hh ▸ hc), fun hh => h5 (hh ▸ hc),
      fun hh => h4 (hh ▸ hc)⟩
  have hrs := run_scan cfg v [] initState hclean rfl (fun _ => h6)
  rw [List.append_nil] at hrs
  rw [hrs, run_nil]
  have hsE : scanEnd cfg v initState =
      { rows := [], row := [], field := v, inQuotes := false,
        lineStart := false } := by
    rw [scanEnd_spec cfg v initState rfl]
    apply tstate_eq <;>
      simp [initState, fieldsAcc_nil_left, splitD_single cfg.delimiter v h1,
        hvE]
  have hfin : finalizeField false cfg.trim v =
      (if cfg.trim then trimJS v else v) := finalizeField_no_quote cfg.trim v h4
  have hwne : (if cfg.trim then trimJS v else v) ≠ [] := by
    cases cfg.trim with
    | true => simpa using h8
    | false => simpa using hv0
  have hflush : flush cfg (scanEnd cfg v initState) =
      { rows := [[if cfg.trim then trimJS v else v]], row := [],
        field := [], inQuotes := false, lineStart := false } := by
    rw [hsE]
    unfold flush
    rw [if_pos (Or.inl (by simpa using List.length_pos.mpr hv0))]
    have hpf : pushField cfg
        { rows := [], row := [], field := v, inQuotes := false,
          lineStart := false } =
        { rows := [], row := [if cfg.trim then trimJS v else v],
          field := [], inQuotes := false, lineStart := false } := by
      apply tstate_eq <;> simp [pushField, hfin]
    rw [hpf]
    unfold pushRow
    rw [if_neg ?hb, if_neg ?hc]
    · apply tstate_eq <;> simp
    case hb =>
      show ¬ (isBlankRow [if cfg.trim then trimJS v else v] = true)
      rw [show isBlankRow [if cfg.trim then trimJS v else v] =
            ((if cfg.trim then trimJS v else v).isEmpty ||
              (trimJS (if cfg.trim then trimJS v else v)).isEmpty)
          from rfl,
        ← hfin, finalize_isEmpty_or cfg.trim v h4, htrE]
      simp
    case hc =>
      show ¬ (isCommentRow cfg.commentChar
        [if cfg.trim then trimJS v else v] = true)
      rw [show isCommentRow cfg.commentChar
            [if cfg.trim then trimJS v else v] =
            ((trimJS (if cfg.trim then trimJS v else v)).head? ==
              some cfg.commentChar) from rfl,
        ← hfin, trimJS_finalize cfg.trim v h4]
      simp [h9]
  rw [hflush]
  rw [dropTrailingBlank_eq_self [[if cfg.trim then trimJS v else v]] ?hne]
  case hne =>
    intro r hr
    rw [List.mem_singleton] at hr
    rw [hr]
    intro hco
    rw [List.cons.injEq] at hco
    exact hwne hco.1

theorem c3_round_trip_witness :
    tokenize defaultCfg "hi".toList =
      [[if defaultCfg.trim then trimJS "hi".toList else "hi".toList]] :=
  c3_round_trip defaultCfg "hi".toList (by decide) (by decide) (by decide)
    (by decide) (by decide) (by decide) (by decide) (by decide) (by decide)

end CSVSpec
